import Mathlib

/-!
Verification development for the tiled/communication-avoiding QR factorization
of the `heat` distributed-array library (files `heat/core/linalg/qr.py` and
`heat/linalg/qr.py`).

The development shallowly embeds the parts of the source that the checked
properties are about:

* the input validation and dispatch of `qr` (lines 73-107 of both files);
* the copy/overwrite and allocation structure of `__qr_split0` / `__qr_split1`
  (the dense numeric kernels `torch.qr` / `torch.matmul` are the out-of-scope
  black boxes of the design and are abstracted as parameters, while the
  aliasing and branching structure is embedded faithfully);
* the pairing / remainder-folding schedule of the binary reduction tree in
  `__r_calc_split0` (the while-loop on `loop_size_remaining`, `rem1`, `rem2`,
  `offset`);
* the message tags computed by `__send_q_to_diag_pr`;
* the merge-replay dictionary construction of `__global_q_dict_set`,
  with local tensor blocks embedded as integer matrices;
* the communication events issued per rank by `__qr_split1_loop` and its
  caller `__qr_split1` (file `heat/linalg/qr.py`);
* the `diag_process` selection of the split-0 Q-phase loop.
-/

namespace HeatQR

/-! ### Python values and `qr` input validation

`qr(a, tiles_per_proc=1, calc_q=True, overwrite_a=False)` validates its
arguments (lines 73-90, identical in both source files) before dispatching on
`a.split`.  Python runtime values are embedded as `PyVal`; a 2-D `DNDarray`
carries its split axis (`None`, `0` or `1`).  Note that in Python `bool` is a
subclass of `int`, so a `bool` passes an `isinstance(x, int)` check; the
embedding mirrors this. -/

inductive PyVal where
  | dnd (split : Option (Fin 2)) (ndim : ℕ)
  | tensor (numel : ℕ)
  | int (n : ℤ)
  | bool (b : Bool)
  | other
deriving DecidableEq

inductive QRError where
  | typeErrorNotDNDarray
  | typeErrorTilesPerProc
  | typeErrorCalcQ
  | typeErrorOverwriteA
  | valueErrorTensorTilesPerProc
  | valueErrorNot2D
deriving DecidableEq

/-- Dispatch target selected by `qr` after validation (lines 92-103). -/
inductive QRPath where
  | split0
  | split1
  | splitNone
deriving DecidableEq

def isDNDarrayVal : PyVal → Bool
  | .dnd _ _ => true
  | _ => false

/-- Embedding of `isinstance(x, (int, torch.Tensor))`; Python `bool` is a
subclass of `int` and therefore passes. -/
def isIntOrTensorVal : PyVal → Bool
  | .int _ => true
  | .bool _ => true
  | .tensor _ => true
  | _ => false

def isTensorVal : PyVal → Bool
  | .tensor _ => true
  | _ => false

def isBoolVal : PyVal → Bool
  | .bool _ => true
  | _ => false

/-- Validation and dispatch of `qr` (lines 73-101 of both files), in source
order: the four `isinstance` type checks, then the unconditional `ValueError`
for a `torch.Tensor` `tiles_per_proc` (lines 84-88), then the
2-dimensionality check (lines 89-90), then the dispatch on `a.split`. -/
def qrValidate (a tilesPerProc calcQ overwriteA : PyVal) : Except QRError QRPath :=
  if ¬ isDNDarrayVal a then .error .typeErrorNotDNDarray
  else if ¬ isIntOrTensorVal tilesPerProc then .error .typeErrorTilesPerProc
  else if ¬ isBoolVal calcQ then .error .typeErrorCalcQ
  else if ¬ isBoolVal overwriteA then .error .typeErrorOverwriteA
  else if isTensorVal tilesPerProc then .error .valueErrorTensorTilesPerProc
  else
    match a with
    | .dnd split ndim =>
      if ndim ≠ 2 then .error .valueErrorNot2D
      else
        match split with
        | Option.some ⟨0, _⟩ => .ok .split0
        | Option.some ⟨1, _⟩ => .ok .split1
        | Option.none => .ok .splitNone
    | _ => .error .typeErrorNotDNDarray

/-! ### Heap model of the drivers: copy/overwrite, allocation, and returns

`__qr_split0` and `__qr_split1` mutate a `DNDarray` in place through its tile
views.  A heap maps locations to array values of an abstract type `α`; the
net numeric effect of each phase is a parameter (the kernels are `torch.qr`
and `torch.matmul`, external to the core per the design).  What is embedded
exactly is which location each phase reads and writes, the `a = a.copy()`
guard, the allocation of `q0`, and what each return statement returns. -/

structure Heap (α : Type) where
  store : ℕ → α
  next : ℕ

def Heap.get (h : Heap α) (l : ℕ) : α := h.store l

def Heap.write (h : Heap α) (l : ℕ) (v : α) : Heap α :=
  ⟨fun l' => if l' = l then v else h.store l', h.next⟩

/-- Allocate a fresh array holding value `v`; returns the new heap and the
fresh location. -/
def Heap.alloc (h : Heap α) (v : α) : Heap α × ℕ :=
  (⟨fun l' => if l' = h.next then v else h.store l', h.next + 1⟩, h.next)

/-- Net numeric effect of each phase, abstracted (the dense `torch.qr` /
`torch.matmul` kernels are out-of-scope collaborators).  `rsplit0` is the
value of the working array after the full split-0 R phase, `qsplit0` the
value of the `q0` accumulator after the split-0 Q phase, similarly for
split 1; `eye0` is the initial `factories.eye` value of `q0`; `qrNone` is
`torch.qr(some=False)` on an undistributed array. -/
structure QRKernels (α : Type) where
  rsplit0 : α → α
  qsplit0 : α → α
  rsplit1 : α → α
  qsplit1 : α → α
  eye0 : α
  qrNone : α → α × α

/-- Shared head of `__qr_split0` / `__qr_split1` up to the `calc_q` branch:
`if not overwrite_a: a = a.copy()` (lines 750-751 / 847-848 of
`heat/core/linalg/qr.py`), allocation of `q0 = factories.eye(...)` (line
755 / 853), and the in-place R calculation on the working array (`rcalc` is
`rsplit0` or `rsplit1`).  Returns (heap after the R phase, working/R
location, `q0` location). -/
def qrSplitPre (rcalc : α → α) (eye0 : α) (overwriteA : Bool) (h : Heap α)
    (aLoc : ℕ) : Heap α × ℕ × ℕ :=
  let p := if overwriteA then (h, aLoc) else Heap.alloc h (Heap.get h aLoc)
  let h1 := p.1
  let w := p.2
  let p2 := Heap.alloc h1 eye0
  let h2 := p2.1
  let qLoc := p2.2
  (Heap.write h2 w (rcalc (Heap.get h2 w)), w, qLoc)

/-- Heap-level embedding of `__qr_split0` (lines 750-817 of
`heat/core/linalg/qr.py`): the shared head, then the
`if not calc_q: return None, a` early return (lines 794-797), else the Q
calculation writing `q0` and `return q0, a` (line 817).  Returns (heap, Q
location if any, R location). -/
def qrSplit0H (k : QRKernels α) (calcQ overwriteA : Bool) (h : Heap α) (aLoc : ℕ) :
    Heap α × Option ℕ × ℕ :=
  let pre := qrSplitPre k.rsplit0 k.eye0 overwriteA h aLoc
  if ¬ calcQ then (pre.1, Option.none, pre.2.1)
  else (Heap.write pre.1 pre.2.2 (k.qsplit0 (Heap.get pre.1 pre.2.1)),
    Option.some pre.2.2, pre.2.1)

/-- Heap-level embedding of `__qr_split1` (lines 847-885 of
`heat/core/linalg/qr.py`): the shared head, then
`return None, a.tiles.arr` when `calc_q` is false (lines 882-883) —
`a.tiles.arr` is the same working array — else the Q calculation and
`return q0, a`. -/
def qrSplit1H (k : QRKernels α) (calcQ overwriteA : Bool) (h : Heap α) (aLoc : ℕ) :
    Heap α × Option ℕ × ℕ :=
  let pre := qrSplitPre k.rsplit1 k.eye0 overwriteA h aLoc
  if ¬ calcQ then (pre.1, Option.none, pre.2.1)
  else (Heap.write pre.1 pre.2.2 (k.qsplit1 (Heap.get pre.1 pre.2.1)),
    Option.some pre.2.2, pre.2.1)

/-- Heap-level embedding of the `a.split is None` branch (lines 100-103):
`q, r = a._DNDarray__array.qr(some=False)` followed by two fresh
`factories.array` allocations; the input array is not written. -/
def qrSplitNoneH (k : QRKernels α) (h : Heap α) (aLoc : ℕ) :
    Heap α × Option ℕ × ℕ :=
  let qr := k.qrNone (Heap.get h aLoc)
  let p1 := Heap.alloc h qr.1
  let p2 := Heap.alloc p1.1 qr.2
  (p2.1, Option.some p1.2, p2.2)

/-- Extract the `Bool` of a validated `calc_q` / `overwrite_a` argument. -/
def asBool : PyVal → Bool
  | .bool b => b
  | _ => false

/-- Heap-level embedding of the whole `qr` entry point: validation, dispatch,
and the final `QR(q if calc_q else None, r)` namedtuple (lines 105-107).  On
a validation error the heap is returned unchanged (the exception is raised
before any dispatch, communication, or mutation). -/
def qrCall (k : QRKernels α) (h : Heap α) (a tilesPerProc calcQ overwriteA : PyVal)
    (aLoc : ℕ) : Heap α × Except QRError (Option ℕ × ℕ) :=
  match qrValidate a tilesPerProc calcQ overwriteA with
  | .error e => (h, .error e)
  | .ok path =>
      let cq := asBool calcQ
      let ow := asBool overwriteA
      let res :=
        match path with
        | .split0 => qrSplit0H k cq ow h aLoc
        | .split1 => qrSplit1H k cq ow h aLoc
        | .splitNone => qrSplitNoneH k h aLoc
      (res.1, .ok (if cq then res.2.1 else Option.none, res.2.2))

/-! ### Message tags of `__send_q_to_diag_pr`

`__send_q_to_diag_pr(col_num, pr0, pr1, diag_process, ...)` (lines 1032-1089
of `heat/core/linalg/qr.py`) transfers a merge-produced Q factor from rank
`pr1` to the diagonal rank with four messages whose tags are built from the
decimal string `base_tag = "1" + str(pr1)` by appending `"1"`, `"12"`,
`"123"`, `"1234"` and applying `int(...)`.  String concatenation of decimal
representations is embedded arithmetically: `int(str(a) + str(b))` is
`a * 10 ^ len(str(b)) + b`, where `len(str(b))` is the decimal digit count
`decLen b` (with `len(str(0)) = 1`). -/

/-- Fuel-driven decimal digit count: `decLenAux fuel n` is the digit count of
`n` provided `fuel ≥ n`. -/
def decLenAux : ℕ → ℕ → ℕ
  | 0, _ => 1
  | fuel + 1, n => if n < 10 then 1 else decLenAux fuel (n / 10) + 1

/-- Decimal digit count of `n`, i.e. `len(str(n))` for a nonnegative Python
int (`decLen 0 = 1`). -/
def decLen (n : ℕ) : ℕ := decLenAux n n

/-- Value of the decimal-string concatenation `int(str(a) + str(b))`. -/
def intConcat (a b : ℕ) : ℕ := a * 10 ^ decLen b + b

/-- Value of `int(base_tag)` with `base_tag = "1" + str(pr1)` (line 1069). -/
def base_tag (pr1 : ℕ) : ℕ := intConcat 1 pr1

/-- Tag of the Q-shape message `int(base_tag + "1")` (lines 1074/1080). -/
def tagQShape (pr1 : ℕ) : ℕ := intConcat (base_tag pr1) 1

/-- Tag of the Q-data message `int(base_tag + "12")` (lines 1075/1084). -/
def tagQData (pr1 : ℕ) : ℕ := intConcat (base_tag pr1) 12

/-- Tag of the upper-shape message `int(base_tag + "123")` (lines 1076/1086). -/
def tagUShape (pr1 : ℕ) : ℕ := intConcat (base_tag pr1) 123

/-- Tag of the lower-shape message `int(base_tag + "1234")` (lines 1077/1087). -/
def tagLShape (pr1 : ℕ) : ℕ := intConcat (base_tag pr1) 1234

/-- Tags used for one transfer of a merge-produced Q factor to the diagonal
process.  The function receives the tile column `col`, the merge loop index
`loop` (the leading character of the `q_dict` key), and the two participant
ranks `pr0`, `pr1` — exactly the data available to `__send_q_to_diag_pr` —
but the source computes every tag from `pr1` alone. -/
def sendTags (col loop pr0 pr1 : ℕ) : List ℕ :=
  [tagQShape pr1, tagQData pr1, tagUShape pr1, tagLShape pr1]

lemma decLenAux_lt_pow (fuel : ℕ) : ∀ n, n ≤ fuel → n < 10 ^ decLenAux fuel n := by
  induction fuel with
  | zero =>
    intro n hn
    have hn0 : n = 0 := Nat.le_zero.mp hn
    subst hn0
    norm_num [decLenAux]
  | succ f ih =>
    intro n hn
    by_cases h : n < 10
    · simpa [decLenAux, h] using h
    · have h1 : n / 10 ≤ f := by omega
      have hk := ih (n / 10) h1
      have h2 : n < 10 * (n / 10 + 1) := by omega
      have h3 : 10 * (n / 10 + 1) ≤ 10 * 10 ^ decLenAux f (n / 10) := by
        exact Nat.mul_le_mul_left 10 hk
      rw [decLenAux]
      simp only [h, if_false]
      calc n < 10 * (n / 10 + 1) := h2
        _ ≤ 10 * 10 ^ decLenAux f (n / 10) := h3
        _ = 10 ^ (decLenAux f (n / 10) + 1) := by rw [pow_succ, Nat.mul_comm]

lemma lt_pow_decLen (n : ℕ) : n < 10 ^ decLen n :=
  decLenAux_lt_pow n n le_rfl

lemma base_tag_inj {p q : ℕ} (h : base_tag p = base_tag q) : p = q := by
  unfold base_tag intConcat at h
  have hp := lt_pow_decLen p
  have hq := lt_pow_decLen q
  rcases lt_trichotomy (decLen p) (decLen q) with hlt | heq | hgt
  · exfalso
    have h1 : 10 ^ decLen p * 10 ≤ 10 ^ decLen q := by
      rw [← pow_succ]
      exact Nat.pow_le_pow_right (by norm_num) hlt
    omega
  · rw [heq] at h
    omega
  · exfalso
    have h1 : 10 ^ decLen q * 10 ≤ 10 ^ decLen p := by
      rw [← pow_succ]
      exact Nat.pow_le_pow_right (by norm_num) hgt
    omega

lemma decLen_one : decLen 1 = 1 := by decide

lemma decLen_twelve : decLen 12 = 2 := by decide

lemma decLen_123 : decLen 123 = 3 := by decide

lemma decLen_1234 : decLen 1234 = 4 := by decide

lemma tagQShape_eq (p : ℕ) : tagQShape p = base_tag p * 10 + 1 := by
  rw [tagQShape, intConcat, decLen_one]
  norm_num

lemma tagQData_eq (p : ℕ) : tagQData p = base_tag p * 100 + 12 := by
  rw [tagQData, intConcat, decLen_twelve]
  norm_num

lemma tagUShape_eq (p : ℕ) : tagUShape p = base_tag p * 1000 + 123 := by
  rw [tagUShape, intConcat, decLen_123]
  norm_num

lemma tagLShape_eq (p : ℕ) : tagLShape p = base_tag p * 10000 + 1234 := by
  rw [tagLShape, intConcat, decLen_1234]
  norm_num

lemma tags_mod (p : ℕ) :
    tagQShape p % 10 = 1 ∧ tagQData p % 10 = 2 ∧
    tagUShape p % 10 = 3 ∧ tagLShape p % 10 = 4 := by
  rw [tagQShape_eq, tagQData_eq, tagUShape_eq, tagLShape_eq]
  omega

lemma tagQShape_inj {p q : ℕ} (h : tagQShape p = tagQShape q) : p = q := by
  rw [tagQShape_eq, tagQShape_eq] at h
  exact base_tag_inj (by omega)

lemma tagQData_inj {p q : ℕ} (h : tagQData p = tagQData q) : p = q := by
  rw [tagQData_eq, tagQData_eq] at h
  exact base_tag_inj (by omega)

lemma tagUShape_inj {p q : ℕ} (h : tagUShape p = tagUShape q) : p = q := by
  rw [tagUShape_eq, tagUShape_eq] at h
  exact base_tag_inj (by omega)

lemma tagLShape_inj {p q : ℕ} (h : tagLShape p = tagLShape q) : p = q := by
  rw [tagLShape_eq, tagLShape_eq] at h
  exact base_tag_inj (by omega)

lemma tag_slot_ne (p q : ℕ) :
    tagQShape p ≠ tagQData q ∧ tagQShape p ≠ tagUShape q ∧
    tagQShape p ≠ tagLShape q ∧ tagQData p ≠ tagUShape q ∧
    tagQData p ≠ tagLShape q ∧ tagUShape p ≠ tagLShape q := by
  have hp := tags_mod p
  have hq := tags_mod q
  refine ⟨fun h => ?_, fun h => ?_, fun h => ?_, fun h => ?_, fun h => ?_, fun h => ?_⟩ <;>
    rw [h] at hp <;> omega

/-! ### Merge schedule of the reduction tree in `__r_calc_split0`

`__r_calc_split0` (lines 559-720 of `heat/core/linalg/qr.py`) reduces the
partial R blocks of the still-active processes with a binary merge tree.  Its
while-loop manipulates `loop_size_remaining` (the ascending list of
not-completed ranks), the remainder slots `rem1` / `rem2`, `offset` (the
first not-completed rank) and a loop counter.  The loop body is embedded as
`iterStep`, producing the merge pairs `(pr0, pr1)` issued in one iteration
(each pair is one `__merge_tile_rows_qr` call followed by one
`__send_q_to_diag_pr` call); the whole loop is `rLoopFuel` (the iteration
count is bounded by the initial list length, so that much fuel is exact).

Inspection notes kept from the source: at the top of every iteration `rem2`
is `None` (it is consumed and cleared inside the same iteration that sets
it), so the state is `(loop_size_remaining, rem1)`; the per-rank early
`break` only stops ranks that appear in no later merge, so the global
schedule is rank-independent. -/

/-- Python tail slice `l[: -k]` used for
`loop_size_remaining[: -1 * (procs_remaining // 2)]` (line 657).  For
`k = 0` Python's `l[:-0]` is `l[:0]`, the empty list. -/
def pyCutTail (l : List α) (k : ℕ) : List α :=
  if k = 0 then [] else l.take (l.length - k)

/-- One iteration of the merge while-loop (lines 615-720): the odd-count
remainder pop (lines 616-623), the first-half/second-half `zip` pairing
(lines 627-655), the tail cut (line 657), the `rem1`/`rem2` fold-in merge
(lines 660-688, with `pr0 = rem2`, `pr1 = rem1`, after which the merged
result is tracked in `rem1`), and the final fold-in of the remainder with
`offset` when one process remains (lines 691-718).  Returns the merge pairs
issued this iteration, the new `loop_size_remaining`, and the new `rem1`. -/
def iterStep (l : List ℕ) (rem1 : Option ℕ) (offset : ℕ) :
    List (ℕ × ℕ) × List ℕ × Option ℕ :=
  let n := l.length
  let t :=
    if n % 2 = 1 then
      match rem1 with
      | Option.none => (l.dropLast, l.getLast?, (Option.none : Option ℕ))
      | Option.some r => (l.dropLast, Option.some r, l.getLast?)
    else (l, rem1, Option.none)
  let l1 := t.1
  let rem1a := t.2.1
  let rem2a := t.2.2
  let pairs := (l1.take (n / 2)).zip (l1.drop (n / 2))
  let l2 := pyCutTail l1 (n / 2)
  let u :=
    match rem1a, rem2a with
    | Option.some r1, Option.some r2 => ([(r2, r1)], (Option.some r2 : Option ℕ))
    | o1, _ => ([], o1)
  let v :=
    match u.2 with
    | Option.some r1 =>
        if l2.length = 1 then ([(offset, r1)], (Option.none : Option ℕ))
        else ([], (Option.some r1 : Option ℕ))
    | Option.none => ([], (Option.none : Option ℕ))
  (pairs ++ u.1 ++ v.1, l2, v.2)

/-- The whole merge while-loop: iterate `iterStep` until
`procs_remaining == 1 and rem1 is None and rem2 is None` (line 720).  The
list length strictly decreases each iteration, so `fuel` at least the
initial length is enough. -/
def rLoopFuel : ℕ → List ℕ → Option ℕ → ℕ → List (ℕ × ℕ)
  | 0, _, _, _ => []
  | fuel + 1, l, rem1, offset =>
    if l.length = 1 ∧ rem1 = Option.none then []
    else
      let s := iterStep l rem1 offset
      s.1 ++ rLoopFuel fuel s.2.1 s.2.2 offset

/-- Merge schedule of one call of `__r_calc_split0` for the not-completed
rank list `prs` (ascending, as produced by `torch.nonzero`): no merge when
at most one process remains (`completed` initialization, line 612),
otherwise the while-loop starting from `rem1 = rem2 = None` and
`offset = not_completed_prs[0]` (lines 608-614). -/
def rCalcSchedule (prs : List ℕ) : List (ℕ × ℕ) :=
  if prs.length ≤ 1 then [] else rLoopFuel prs.length prs Option.none (prs.headD 0)

/-- Row-block bookkeeping semantics of one pairwise merge: after
`__merge_tile_rows_qr(pr0, pr1, ...)` the merged upper-triangular block
(carrying the row-block contributions of both participants) is stored on
`pr0`, while `pr1` keeps only the eliminated lower part (lines 299-305).
The contributions each rank's current block carries are tracked as a
multiset of original rank numbers. -/
def mergeOne (p0 p1 : ℕ) (f : ℕ → Multiset ℕ) : ℕ → Multiset ℕ :=
  fun r => if r = p0 then f p0 + f p1 else if r = p1 then 0 else f r

/-- Fold a merge schedule over the row-block contribution map. -/
def applyMerges (ms : List (ℕ × ℕ)) (f : ℕ → Multiset ℕ) : ℕ → Multiset ℕ :=
  ms.foldl (fun g m => mergeOne m.1 m.2 g) f

/-- Ranks touched by a merge schedule. -/
def participants (ms : List (ℕ × ℕ)) : List ℕ :=
  ms.flatMap (fun m => [m.1, m.2])

lemma applyMerges_nil (f : ℕ → Multiset ℕ) : applyMerges [] f = f := rfl

lemma applyMerges_cons (p : ℕ × ℕ) (ms : List (ℕ × ℕ)) (f : ℕ → Multiset ℕ) :
    applyMerges (p :: ms) f = applyMerges ms (mergeOne p.1 p.2 f) := rfl

lemma applyMerges_append (ms1 ms2 : List (ℕ × ℕ)) (f : ℕ → Multiset ℕ) :
    applyMerges (ms1 ++ ms2) f = applyMerges ms2 (applyMerges ms1 f) :=
  List.foldl_append ..

lemma participants_append (ms1 ms2 : List (ℕ × ℕ)) :
    participants (ms1 ++ ms2) = participants ms1 ++ participants ms2 := by
  simp [participants]

/-- Correctness record for a stretch of the merge schedule: `old` is the
multiset of ranks still carrying row-block content before the stretch,
`new` the ranks still carrying content after it; the stretch only touches
ranks of `old`, conserves the total content (moving it from consumed ranks
into surviving ones), zeroes exactly the consumed ranks, and leaves
everything outside `old` untouched. -/
structure StepOK (old new : Multiset ℕ) (ps : List (ℕ × ℕ)) : Prop where
  nodup : new.Nodup
  subset : new ⊆ old
  parts : ∀ r ∈ participants ps, r ∈ old
  conserve : ∀ f : ℕ → Multiset ℕ, (new.map (applyMerges ps f)).sum = (old.map f).sum
  consumed : ∀ (f : ℕ → Multiset ℕ), ∀ r ∈ old, r ∉ new → applyMerges ps f r = 0
  frame : ∀ (f : ℕ → Multiset ℕ) (r : ℕ), r ∉ old → applyMerges ps f r = f r

lemma StepOK.nil (old : Multiset ℕ) (h : old.Nodup) : StepOK old old [] where
  nodup := h
  subset := Multiset.Subset.refl old
  parts := by simp [participants]
  conserve := fun _ => rfl
  consumed := fun _ r hr hn => absurd hr hn
  frame := fun _ _ _ => rfl

lemma StepOK.trans {old mid new : Multiset ℕ} {ps1 ps2 : List (ℕ × ℕ)}
    (s1 : StepOK old mid ps1) (s2 : StepOK mid new ps2) :
    StepOK old new (ps1 ++ ps2) where
  nodup := s2.nodup
  subset := Multiset.Subset.trans s2.subset s1.subset
  parts := by
    intro r hr
    rw [participants_append, List.mem_append] at hr
    rcases hr with h | h
    · exact s1.parts r h
    · exact s1.subset (s2.parts r h)
  conserve := fun f => by
    rw [applyMerges_append]
    rw [s2.conserve (applyMerges ps1 f), s1.conserve f]
  consumed := fun f r hr hn => by
    rw [applyMerges_append]
    by_cases hm : r ∈ mid
    · exact s2.consumed (applyMerges ps1 f) r hm hn
    · rw [s2.frame (applyMerges ps1 f) r hm]
      exact s1.consumed f r hr hm
  frame := fun f r hr => by
    have hm : r ∉ mid := fun h => hr (s1.subset h)
    rw [applyMerges_append, s2.frame _ r hm, s1.frame f r hr]

lemma mergeOne_fst (p0 p1 : ℕ) (f : ℕ → Multiset ℕ) :
    mergeOne p0 p1 f p0 = f p0 + f p1 := by
  simp [mergeOne]

lemma mergeOne_snd (p0 p1 : ℕ) (f : ℕ → Multiset ℕ) (hne : p0 ≠ p1) :
    mergeOne p0 p1 f p1 = 0 := by
  simp [mergeOne, (Ne.symm hne)]

lemma mergeOne_other (p0 p1 r : ℕ) (f : ℕ → Multiset ℕ) (h0 : r ≠ p0) (h1 : r ≠ p1) :
    mergeOne p0 p1 f r = f r := by
  simp [mergeOne, h0, h1]

lemma StepOK.single (old : Multiset ℕ) (p0 p1 : ℕ) (hnd : old.Nodup)
    (h0 : p0 ∈ old) (h1 : p1 ∈ old) (hne : p0 ≠ p1) :
    StepOK old (old.erase p1) [(p0, p1)] where
  nodup := hnd.erase p1
  subset := old.erase_subset p1
  parts := by
    intro r hr
    simp only [participants, List.flatMap_cons, List.flatMap_nil, List.append_nil,
      List.mem_cons, List.not_mem_nil, or_false] at hr
    rcases hr with h | h
    · exact h ▸ h0
    · exact h ▸ h1
  conserve := fun f => by
    have hps : applyMerges [(p0, p1)] f = mergeOne p0 p1 f := rfl
    rw [hps]
    have h0e : p0 ∈ old.erase p1 := (hnd.mem_erase_iff).mpr ⟨hne, h0⟩
    have key : ∀ s : Multiset ℕ, s.Nodup → p0 ∈ s → p1 ∉ s →
        (s.map (mergeOne p0 p1 f)).sum = (s.map f).sum + f p1 := by
      intro s hs hp0 hp1
      obtain ⟨t, rfl⟩ : ∃ t, s = p0 ::ₘ t := ⟨s.erase p0, (Multiset.cons_erase hp0).symm⟩
      have hp0t : p0 ∉ t := by
        have := hs
        rw [Multiset.nodup_cons] at this
        exact this.1
      have hmap : t.map (mergeOne p0 p1 f) = t.map f := by
        apply Multiset.map_congr rfl
        intro r hr
        exact mergeOne_other p0 p1 r f (fun h => hp0t (h ▸ hr))
          (fun h => hp1 (h ▸ Multiset.mem_cons_of_mem hr))
      rw [Multiset.map_cons, Multiset.map_cons, Multiset.sum_cons, Multiset.sum_cons,
        hmap, mergeOne_fst]
      abel
    have hrec : old = p1 ::ₘ old.erase p1 := (Multiset.cons_erase h1).symm
    have hp1e : p1 ∉ old.erase p1 := fun h => by
      have := (hnd.mem_erase_iff).mp h
      exact this.1 rfl
    rw [key (old.erase p1) (hnd.erase p1) h0e hp1e]
    conv_rhs => rw [hrec]
    rw [Multiset.map_cons, Multiset.sum_cons]
    abel
  consumed := fun f r hr hn => by
    have hr1 : r = p1 := by
      by_contra hne'
      exact hn ((hnd.mem_erase_iff).mpr ⟨hne', hr⟩)
    subst hr1
    have hps : applyMerges [(p0, r)] f = mergeOne p0 r f := rfl
    rw [hps]
    exact mergeOne_snd p0 r f hne
  frame := fun f r hr => by
    have hps : applyMerges [(p0, p1)] f = mergeOne p0 p1 f := rfl
    rw [hps]
    exact mergeOne_other p0 p1 r f (fun h => hr (h ▸ h0)) (fun h => hr (h ▸ h1))

lemma StepOK.zipStep : ∀ (xs ys : List ℕ) (rest : Multiset ℕ),
    xs.length = ys.length →
    ((↑(xs ++ ys) : Multiset ℕ) + rest).Nodup →
    StepOK ((↑(xs ++ ys) : Multiset ℕ) + rest) ((↑xs : Multiset ℕ) + rest) (xs.zip ys) := by
  intro xs
  induction xs with
  | nil =>
    intro ys rest hlen hnd
    have hys : ys = [] := List.length_eq_zero.mp hlen.symm
    subst hys
    simpa using StepOK.nil _ (by simpa using hnd)
  | cons x xs ih =>
    intro ys rest hlen hnd
    cases ys with
    | nil => simp at hlen
    | cons y ys =>
      have hold : ((↑((x :: xs) ++ (y :: ys)) : Multiset ℕ) + rest)
          = y ::ₘ ((↑(xs ++ ys) : Multiset ℕ) + ({x} + rest)) := by
        simp only [List.cons_append, ← Multiset.cons_coe, ← Multiset.coe_add,
          ← Multiset.singleton_add]
        abel
      have hnew : ((↑(x :: xs) : Multiset ℕ) + rest)
          = (↑xs : Multiset ℕ) + ({x} + rest) := by
        simp only [← Multiset.cons_coe, ← Multiset.singleton_add]
        abel
      have hxy : x ≠ y := by
        have h1 : ((x :: xs) ++ (y :: ys)).Nodup := by
          rw [Multiset.nodup_add] at hnd
          exact Multiset.coe_nodup.mp hnd.1
        simp only [List.cons_append, List.nodup_cons, List.mem_append, List.mem_cons] at h1
        intro h
        exact h1.1 (Or.inr (Or.inl h))
      have hxm : x ∈ ((↑((x :: xs) ++ (y :: ys)) : Multiset ℕ) + rest) := by
        simp
      have hym : y ∈ ((↑((x :: xs) ++ (y :: ys)) : Multiset ℕ) + rest) := by
        simp
      have hmidnd : ((↑(xs ++ ys) : Multiset ℕ) + ({x} + rest)).Nodup := by
        rw [hold] at hnd
        exact (Multiset.nodup_cons.mp hnd).2
      have s1 := StepOK.single _ x y hnd hxm hym hxy
      have s2 : StepOK (((((x :: xs) ++ (y :: ys) : List ℕ) : Multiset ℕ) + rest).erase y)
          ((↑(x :: xs) : Multiset ℕ) + rest) (xs.zip ys) := by
        rw [hold, Multiset.erase_cons_head, hnew]
        exact ih ys ({x} + rest) (by simpa using hlen) hmidnd
      have hzip : (x :: xs).zip (y :: ys) = [(x, y)] ++ xs.zip ys := rfl
      rw [hzip]
      exact StepOK.trans s1 s2

lemma headD_take (l : List ℕ) (k : ℕ) (hk : 1 ≤ k) :
    (l.take k).headD 0 = l.headD 0 := by
  cases l with
  | nil => simp
  | cons a t =>
    cases k with
    | zero => omega
    | succ k => simp

lemma headD_dropLast (l : List ℕ) (h : 2 ≤ l.length) :
    l.dropLast.headD 0 = l.headD 0 := by
  cases l with
  | nil => simp at h
  | cons a t =>
    cases t with
    | nil => simp at h
    | cons b t => simp

lemma headD_mem (l : List ℕ) (h : l ≠ []) : l.headD 0 ∈ l := by
  cases l with
  | nil => exact absurd rfl h
  | cons a t => simp

lemma pyCutTail_pos (l : List α) (k : ℕ) (hk : 1 ≤ k) :
    pyCutTail l k = l.take (l.length - k) := by
  have hk0 : k ≠ 0 := by omega
  simp [pyCutTail, hk0]

lemma add_singleton_erase (s : Multiset ℕ) (a : ℕ) : (s + {a}).erase a = s := by
  rw [add_comm, Multiset.singleton_add, Multiset.erase_cons_head]

lemma iterStep_even_none (l : List ℕ) (offset : ℕ) (he : l.length % 2 = 0) :
    iterStep l Option.none offset =
      ((l.take (l.length / 2)).zip (l.drop (l.length / 2)),
        pyCutTail l (l.length / 2), Option.none) := by
  simp [iterStep, he]

lemma iterStep_even_some (l : List ℕ) (r offset : ℕ) (he : l.length % 2 = 0) :
    iterStep l (Option.some r) offset =
      ((l.take (l.length / 2)).zip (l.drop (l.length / 2)) ++
         (if (pyCutTail l (l.length / 2)).length = 1 then [(offset, r)] else []),
        pyCutTail l (l.length / 2),
        if (pyCutTail l (l.length / 2)).length = 1 then Option.none
        else Option.some r) := by
  by_cases h : (pyCutTail l (l.length / 2)).length = 1 <;> simp [iterStep, he, h]

lemma iterStep_odd_none (l : List ℕ) (lst offset : ℕ) (ho : l.length % 2 = 1)
    (hlst : l.getLast? = Option.some lst) :
    iterStep l Option.none offset =
      ((l.dropLast.take (l.length / 2)).zip (l.dropLast.drop (l.length / 2)) ++
         (if (pyCutTail l.dropLast (l.length / 2)).length = 1 then [(offset, lst)] else []),
        pyCutTail l.dropLast (l.length / 2),
        if (pyCutTail l.dropLast (l.length / 2)).length = 1 then Option.none
        else Option.some lst) := by
  by_cases h : (pyCutTail l.dropLast (l.length / 2)).length = 1 <;>
    simp [iterStep, ho, hlst, h]

lemma iterStep_odd_some (l : List ℕ) (r lst offset : ℕ) (ho : l.length % 2 = 1)
    (hlst : l.getLast? = Option.some lst) :
    iterStep l (Option.some r) offset =
      ((l.dropLast.take (l.length / 2)).zip (l.dropLast.drop (l.length / 2)) ++
         [(lst, r)] ++
         (if (pyCutTail l.dropLast (l.length / 2)).length = 1 then [(offset, lst)] else []),
        pyCutTail l.dropLast (l.length / 2),
        if (pyCutTail l.dropLast (l.length / 2)).length = 1 then Option.none
        else Option.some lst) := by
  by_cases h : (pyCutTail l.dropLast (l.length / 2)).length = 1 <;>
    simp [iterStep, ho, hlst, h]


lemma iterStep_ok (l : List ℕ) (rem1 : Option ℕ) (offset : ℕ)
    (h2 : 2 ≤ l.length)
    (hnd : (↑(l ++ rem1.toList) : Multiset ℕ).Nodup)
    (hoff : offset = l.headD 0) :
    StepOK (↑(l ++ rem1.toList))
        (↑((iterStep l rem1 offset).2.1 ++ (iterStep l rem1 offset).2.2.toList))
        (iterStep l rem1 offset).1
    ∧ (iterStep l rem1 offset).2.1.length < l.length
    ∧ 1 ≤ (iterStep l rem1 offset).2.1.length
    ∧ (iterStep l rem1 offset).2.1.headD 0 = l.headD 0
    ∧ ((iterStep l rem1 offset).2.1.length = 1 →
        (iterStep l rem1 offset).2.2 = Option.none) := by
  have hlnd : l.Nodup := by
    have : (l ++ rem1.toList).Nodup := Multiset.coe_nodup.mp hnd
    exact this.of_append_left
  rcases Nat.mod_two_eq_zero_or_one l.length with he | ho
  · -- even process count: no pop
    have hk1 : 1 ≤ l.length / 2 := by omega
    have hcut : pyCutTail l (l.length / 2) = l.take (l.length / 2) := by
      rw [pyCutTail_pos _ _ hk1]
      congr 1
      omega
    have hlen2 : (l.take (l.length / 2)).length = l.length / 2 := by
      rw [List.length_take]
      omega
    have hlens : (l.take (l.length / 2)).length = (l.drop (l.length / 2)).length := by
      rw [List.length_take, List.length_drop]
      omega
    have happ : l.take (l.length / 2) ++ l.drop (l.length / 2) = l :=
      List.take_append_drop _ _
    have hxne : l.take (l.length / 2) ≠ [] := by
      intro h
      rw [h] at hlen2
      simp at hlen2
      omega
    have hoffx : offset ∈ l.take (l.length / 2) := by
      rw [hoff, ← headD_take l _ hk1]
      exact headD_mem _ hxne
    cases rem1 with
    | none =>
      have hstep : iterStep l Option.none offset
          = ((l.take (l.length / 2)).zip (l.drop (l.length / 2)),
              l.take (l.length / 2), Option.none) := by
        rw [iterStep_even_none l offset he, hcut]
      rw [hstep]
      dsimp only
      have hnd' : ((↑(l.take (l.length / 2) ++ l.drop (l.length / 2)) : Multiset ℕ) +
          0).Nodup := by
        rw [happ, add_zero]
        simpa using hnd
      have hz := StepOK.zipStep (l.take (l.length / 2)) (l.drop (l.length / 2)) 0 hlens hnd'
      refine ⟨by simpa [happ] using hz, by rw [hlen2]; omega, by rw [hlen2]; omega,
        headD_take l _ hk1, fun _ => rfl⟩
    | some r =>
      have hrnotl : r ∉ l := by
        have hh : (l ++ [r]).Nodup := by simpa using hnd
        rw [List.nodup_append] at hh
        intro hrl
        exact hh.2.2 hrl (by simp)
      have hner : offset ≠ r := by
        intro h
        exact hrnotl (h ▸ (List.take_subset _ _ hoffx))
      have holdm : (↑(l ++ [r]) : Multiset ℕ)
          = (↑(l.take (l.length / 2) ++ l.drop (l.length / 2)) : Multiset ℕ) + {r} := by
        rw [happ]
        simp [← Multiset.coe_add]
      have hndm : ((↑(l.take (l.length / 2) ++ l.drop (l.length / 2)) : Multiset ℕ) +
          {r}).Nodup := by
        rw [← holdm]
        simpa using hnd
      have hz := StepOK.zipStep (l.take (l.length / 2)) (l.drop (l.length / 2)) {r}
        hlens hndm
      by_cases hone : (l.take (l.length / 2)).length = 1
      · have hstep : iterStep l (Option.some r) offset
            = ((l.take (l.length / 2)).zip (l.drop (l.length / 2)) ++ [(offset, r)],
                l.take (l.length / 2), Option.none) := by
          rw [iterStep_even_some l r offset he, hcut, if_pos hone, if_pos hone]
        rw [hstep]
        dsimp only
        have hoffm : offset ∈ (↑(l.take (l.length / 2)) : Multiset ℕ) + {r} := by
          simp [hoffx]
        have hrm : r ∈ (↑(l.take (l.length / 2)) : Multiset ℕ) + {r} := by simp
        have hs2 := StepOK.single _ offset r hz.nodup hoffm hrm hner
        rw [add_singleton_erase] at hs2
        have ht := StepOK.trans hz hs2
        refine ⟨by simpa [holdm] using ht, by rw [hlen2]; omega, by rw [hlen2]; omega,
          headD_take l _ hk1, fun _ => rfl⟩
      · have hstep : iterStep l (Option.some r) offset
            = ((l.take (l.length / 2)).zip (l.drop (l.length / 2)),
                l.take (l.length / 2), Option.some r) := by
          rw [iterStep_even_some l r offset he, hcut, if_neg hone, if_neg hone]
          simp
        rw [hstep]
        dsimp only
        refine ⟨by simpa [holdm, ← Multiset.coe_add] using hz,
          by rw [hlen2]; omega, by rw [hlen2]; omega,
          headD_take l _ hk1, fun h => absurd h hone⟩
  · -- odd process count: pop the last rank into a remainder slot
    have hne : l ≠ [] := by
      intro h
      rw [h] at h2
      simp at h2
    have hlst := List.getLast?_eq_getLast l hne
    have hl : l.dropLast ++ [l.getLast hne] = l := List.dropLast_append_getLast hne
    have hk1 : 1 ≤ l.length / 2 := by omega
    have hlen1 : l.dropLast.length = l.length - 1 := List.length_dropLast l
    have hcut : pyCutTail l.dropLast (l.length / 2)
        = l.dropLast.take (l.length / 2) := by
      rw [pyCutTail_pos _ _ hk1]
      congr 1
      omega
    have hlen2 : (l.dropLast.take (l.length / 2)).length = l.length / 2 := by
      rw [List.length_take]
      omega
    have hlens : (l.dropLast.take (l.length / 2)).length
        = (l.dropLast.drop (l.length / 2)).length := by
      rw [List.length_take, List.length_drop]
      omega
    have happ : l.dropLast.take (l.length / 2) ++ l.dropLast.drop (l.length / 2)
        = l.dropLast := List.take_append_drop _ _
    have hxne : l.dropLast.take (l.length / 2) ≠ [] := by
      intro h
      rw [h] at hlen2
      simp at hlen2
      omega
    have hoffx : offset ∈ l.dropLast.take (l.length / 2) := by
      rw [hoff, ← headD_dropLast l h2, ← headD_take l.dropLast _ hk1]
      exact headD_mem _ hxne
    have hlstnot : l.getLast hne ∉ l.dropLast := by
      have hh : (l.dropLast ++ [l.getLast hne]).Nodup := by
        rw [hl]
        exact hlnd
      rw [List.nodup_append] at hh
      intro hmem
      exact hh.2.2 hmem (by simp)
    have hnelst : offset ≠ l.getLast hne := by
      intro h
      exact hlstnot (h ▸ (List.take_subset _ _ hoffx))
    have hheadd : (l.dropLast.take (l.length / 2)).headD 0 = l.headD 0 := by
      rw [headD_take l.dropLast _ hk1]
      exact headD_dropLast l h2
    cases rem1 with
    | none =>
      have holdm : (↑l : Multiset ℕ)
          = (↑(l.dropLast.take (l.length / 2) ++ l.dropLast.drop (l.length / 2)) :
              Multiset ℕ) + {l.getLast hne} := by
        rw [happ]
        conv_lhs => rw [← hl]
        simp [← Multiset.coe_add]
      have hndm : ((↑(l.dropLast.take (l.length / 2) ++
          l.dropLast.drop (l.length / 2)) : Multiset ℕ) + {l.getLast hne}).Nodup := by
        rw [← holdm]
        simpa using hnd
      have hz := StepOK.zipStep _ _ {l.getLast hne} hlens hndm
      by_cases hone : (l.dropLast.take (l.length / 2)).length = 1
      · have hstep : iterStep l Option.none offset
            = ((l.dropLast.take (l.length / 2)).zip (l.dropLast.drop (l.length / 2)) ++
                [(offset, l.getLast hne)],
                l.dropLast.take (l.length / 2), Option.none) := by
          rw [iterStep_odd_none l (l.getLast hne) offset ho hlst, hcut,
            if_pos hone, if_pos hone]
        rw [hstep]
        dsimp only
        have hoffm : offset ∈ (↑(l.dropLast.take (l.length / 2)) : Multiset ℕ) +
            {l.getLast hne} := by
          simp [hoffx]
        have hlm : l.getLast hne ∈ (↑(l.dropLast.take (l.length / 2)) : Multiset ℕ) +
            {l.getLast hne} := by simp
        have hs2 := StepOK.single _ offset (l.getLast hne) hz.nodup hoffm hlm hnelst
        rw [add_singleton_erase] at hs2
        have ht := StepOK.trans hz hs2
        refine ⟨by simpa [holdm] using ht, by rw [hlen2]; omega, by rw [hlen2]; omega,
          hheadd, fun _ => rfl⟩
      · have hstep : iterStep l Option.none offset
            = ((l.dropLast.take (l.length / 2)).zip (l.dropLast.drop (l.length / 2)),
                l.dropLast.take (l.length / 2), Option.some (l.getLast hne)) := by
          rw [iterStep_odd_none l (l.getLast hne) offset ho hlst, hcut,
            if_neg hone, if_neg hone]
          simp
        rw [hstep]
        dsimp only
        refine ⟨by simpa [holdm, ← Multiset.coe_add] using hz,
          by rw [hlen2]; omega, by rw [hlen2]; omega, hheadd, fun h => absurd h hone⟩
    | some r =>
      have hrnotl : r ∉ l := by
        have hh : (l ++ [r]).Nodup := by simpa using hnd
        rw [List.nodup_append] at hh
        intro hrl
        exact hh.2.2 hrl (by simp)
      have hlstr : l.getLast hne ≠ r := by
        intro h
        exact hrnotl (h ▸ List.getLast_mem hne)
      have holdm : (↑(l ++ [r]) : Multiset ℕ)
          = (↑(l.dropLast.take (l.length / 2) ++ l.dropLast.drop (l.length / 2)) :
              Multiset ℕ) + ({l.getLast hne} + {r}) := by
        rw [happ]
        conv_lhs => rw [← hl]
        simp only [← Multiset.coe_add, ← Multiset.coe_singleton]
        abel
      have hndm : ((↑(l.dropLast.take (l.length / 2) ++
          l.dropLast.drop (l.length / 2)) : Multiset ℕ) +
          ({l.getLast hne} + {r})).Nodup := by
        rw [← holdm]
        simpa using hnd
      have hz := StepOK.zipStep _ _ ({l.getLast hne} + {r}) hlens hndm
      have hmid1 : (↑(l.dropLast.take (l.length / 2)) : Multiset ℕ) +
          ({l.getLast hne} + {r})
          = ((↑(l.dropLast.take (l.length / 2)) : Multiset ℕ) + {l.getLast hne}) +
            {r} := by
        abel
      have hlm1 : l.getLast hne ∈ (↑(l.dropLast.take (l.length / 2)) : Multiset ℕ) +
          ({l.getLast hne} + {r}) := by simp
      have hrm1 : r ∈ (↑(l.dropLast.take (l.length / 2)) : Multiset ℕ) +
          ({l.getLast hne} + {r}) := by simp
      have hs1 := StepOK.single _ (l.getLast hne) r hz.nodup hlm1 hrm1 hlstr
      rw [hmid1, add_singleton_erase, ← hmid1] at hs1
      by_cases hone : (l.dropLast.take (l.length / 2)).length = 1
      · have hstep : iterStep l (Option.some r) offset
            = ((l.dropLast.take (l.length / 2)).zip (l.dropLast.drop (l.length / 2)) ++
                [(l.getLast hne, r)] ++ [(offset, l.getLast hne)],
                l.dropLast.take (l.length / 2), Option.none) := by
          rw [iterStep_odd_some l r (l.getLast hne) offset ho hlst, hcut,
            if_pos hone, if_pos hone]
        rw [hstep]
        dsimp only
        have hoffm : offset ∈ (↑(l.dropLast.take (l.length / 2)) : Multiset ℕ) +
            {l.getLast hne} := by
          simp [hoffx]
        have hlm2 : l.getLast hne ∈ (↑(l.dropLast.take (l.length / 2)) : Multiset ℕ) +
            {l.getLast hne} := by simp
        have hs2 := StepOK.single _ offset (l.getLast hne) hs1.nodup hoffm hlm2 hnelst
        rw [add_singleton_erase] at hs2
        have ht := StepOK.trans (StepOK.trans hz hs1) hs2
        refine ⟨by simpa [holdm, hmid1] using ht, by rw [hlen2]; omega,
          by rw [hlen2]; omega, hheadd, fun _ => rfl⟩
      · have hstep : iterStep l (Option.some r) offset
            = ((l.dropLast.take (l.length / 2)).zip (l.dropLast.drop (l.length / 2)) ++
                [(l.getLast hne, r)],
                l.dropLast.take (l.length / 2), Option.some (l.getLast hne)) := by
          rw [iterStep_odd_some l r (l.getLast hne) offset ho hlst, hcut,
            if_neg hone, if_neg hone]
          simp
        rw [hstep]
        dsimp only
        have ht := StepOK.trans hz hs1
        refine ⟨by simpa [holdm, hmid1, ← Multiset.coe_add] using ht,
          by rw [hlen2]; omega, by rw [hlen2]; omega, hheadd, fun h => absurd h hone⟩

lemma length_one_eq (l : List ℕ) (h1 : l.length = 1) : l = [l.headD 0] := by
  cases l with
  | nil => simp at h1
  | cons a t =>
    cases t with
    | nil => rfl
    | cons b t => simp at h1

lemma rLoopFuel_ok : ∀ (fuel : ℕ) (l : List ℕ) (rem1 : Option ℕ) (offset : ℕ),
    l.length ≤ fuel → 2 ≤ l.length →
    (↑(l ++ rem1.toList) : Multiset ℕ).Nodup →
    offset = l.headD 0 →
    StepOK (↑(l ++ rem1.toList)) {offset} (rLoopFuel fuel l rem1 offset) := by
  intro fuel
  induction fuel with
  | zero =>
    intro l rem1 offset hf h2 _ _
    omega
  | succ f ih =>
    intro l rem1 offset hf h2 hnd hoff
    have hcheck : ¬ (l.length = 1 ∧ rem1 = Option.none) := by
      rintro ⟨h1, _⟩
      omega
    obtain ⟨hstep, hlt, hge1, hhead, her⟩ := iterStep_ok l rem1 offset h2 hnd hoff
    have hunf : rLoopFuel (f + 1) l rem1 offset
        = (iterStep l rem1 offset).1 ++
          rLoopFuel f (iterStep l rem1 offset).2.1 (iterStep l rem1 offset).2.2 offset := by
      rw [rLoopFuel, if_neg hcheck]
    rw [hunf]
    by_cases hone : (iterStep l rem1 offset).2.1.length = 1
    · have hrn := her hone
      have hrec : rLoopFuel f (iterStep l rem1 offset).2.1
          (iterStep l rem1 offset).2.2 offset = [] := by
        cases f with
        | zero => rfl
        | succ f' => rw [rLoopFuel, if_pos ⟨hone, hrn⟩]
      rw [hrec, List.append_nil]
      have hl2 : (iterStep l rem1 offset).2.1 = [offset] :=
        (length_one_eq _ hone).trans (by rw [hhead, ← hoff])
      rw [hl2, hrn] at hstep
      simpa using hstep
    · have h2' : 2 ≤ (iterStep l rem1 offset).2.1.length := by omega
      have ihc := ih (iterStep l rem1 offset).2.1 (iterStep l rem1 offset).2.2 offset
        (by omega) h2' hstep.nodup (by rw [hhead, hoff])
      exact StepOK.trans hstep ihc

/-- C5: for every not-completed rank list (any size, in particular odd sizes
at any tree depth), the merge schedule of `__r_calc_split0` folds every
rank's row-block into the tree exactly once: the fold of all scheduled
merges leaves the first rank (`offset`, which is the diagonal process)
holding exactly one contribution from every not-completed rank — none
dropped, none duplicated — and every other rank's block fully consumed. -/
theorem C5_remainder_folding (prs : List ℕ) (hnd : prs.Nodup) (hne : prs ≠ []) :
    applyMerges (rCalcSchedule prs) (fun r => {r}) (prs.headD 0) = (↑prs : Multiset ℕ)
    ∧ (∀ r ∈ prs, r ≠ prs.headD 0 →
        applyMerges (rCalcSchedule prs) (fun r => {r}) r = 0) := by
  by_cases h1 : prs.length ≤ 1
  · have hsch : rCalcSchedule prs = [] := by simp [rCalcSchedule, h1]
    have hlen : prs.length = 1 := by
      cases prs with
      | nil => exact absurd rfl hne
      | cons a t =>
        simp only [List.length_cons] at h1 ⊢
        omega
    have hp : prs = [prs.headD 0] := length_one_eq prs hlen
    rw [hsch]
    constructor
    · rw [applyMerges_nil]
      conv_rhs => rw [hp]
      simp
    · intro r hr hner
      rw [hp, List.mem_singleton] at hr
      exact absurd hr hner
  · have h2 : 2 ≤ prs.length := by omega
    have hs := rLoopFuel_ok prs.length prs Option.none (prs.headD 0) le_rfl h2
      (by simpa using hnd) rfl
    have hsch : rCalcSchedule prs
        = rLoopFuel prs.length prs Option.none (prs.headD 0) := by
      simp [rCalcSchedule, h1]
    have hold : (↑(prs ++ (Option.none : Option ℕ).toList) : Multiset ℕ) = ↑prs := by
      simp
    constructor
    · have hc := hs.conserve (fun r => {r})
      rw [hold, Multiset.map_singleton, Multiset.sum_singleton,
        Multiset.sum_map_singleton] at hc
      rw [hsch]
      exact hc
    · intro r hr hner
      have hc := hs.consumed (fun r => {r}) r (by simp [hr])
        (fun h => hner (Multiset.mem_singleton.mp h))
      rw [hsch]
      exact hc

/-- Witness for C5 at the five-rank configuration (odd active count at the
first depth, then again odd at depth two). -/
theorem C5_remainder_folding_witness :
    applyMerges (rCalcSchedule [0, 1, 2, 3, 4]) (fun r => {r}) 0
      = ({0, 1, 2, 3, 4} : Multiset ℕ)
    ∧ applyMerges (rCalcSchedule [0, 1, 2, 3, 4]) (fun r => {r}) 3 = 0 := by
  have h := C5_remainder_folding [0, 1, 2, 3, 4] (by decide) (by decide)
  exact ⟨by simpa using h.1, h.2 3 (by decide) (by decide)⟩

/-! ### Communication events of the split-0 driver

`__qr_split0` (lines 723-817 of `heat/core/linalg/qr.py`) runs the R phase
(one `__r_calc_split0` per tile column, lines 778-793), then — only when
`calc_q` — the Q phase (one `__q_calc_split0` per tile column, lines
799-813).  The communication operations are embedded as an event trace.
The Q-phase trace models the per-rank `Ibcast` loop of the local-Q exchange
(lines 456-466); the further merge-dictionary broadcasts (lines 495-508)
are additional Q-phase-only events whose number depends on runtime tensor
data and are not needed for the checked properties. -/

inductive CommEv where
  | merge (pr0 pr1 : ℕ)
  | sendQToDiag (src dst : ℕ)
  | localQIbcast (root : ℕ)
deriving DecidableEq

/-- Inclusive prefix sums, the embedding of `torch.cumsum(..., dim=0)`. -/
def cumsum (l : List ℕ) : List ℕ := (l.scanl (· + ·) 0).tail

/-- Embedding of
`not_completed_processes = torch.nonzero(col < proc_tile_start).flatten()`
(line 780): the ascending list of ranks whose cumulative tile-row count
exceeds `col`. -/
def notCompleted (trp : List ℕ) (col : ℕ) : List ℕ :=
  (List.range trp.length).filter (fun i => decide (col < (cumsum trp).getD i 0))

/-- Events of one `__r_calc_split0` call: every scheduled pairwise merge
(`__merge_tile_rows_qr`) is immediately followed by the transfer of the
merge-produced Q factor to the diagonal process (`__send_q_to_diag_pr`,
called unconditionally at lines 644-655, 675-686, 706-717); the diagonal
process is `not_completed_processes[0]` (line 784). -/
def rCalcEvents (prs : List ℕ) : List CommEv :=
  (rCalcSchedule prs).flatMap
    (fun p => [CommEv.merge p.1 p.2, CommEv.sendQToDiag p.2 (prs.headD 0)])

/-- Q-phase diagonal-process selection (lines 799-803 of
`heat/core/linalg/qr.py`, lines 810-816 of `heat/linalg/qr.py`):
`torch.nonzero(proc_tile_start > col)[0] if col != tile_columns else
proc_tile_start[-1]`.  The first branch is the index of the first entry
exceeding `col` (`List.findIdx` returns the list length where torch would
raise on an empty index set); the second returns the *last value* of
`proc_tile_start`. -/
def qPhaseDiagProcess (ptst : List ℕ) (col tileColumns : ℕ) : ℕ :=
  if col ≠ tileColumns then ptst.findIdx (fun s => decide (col < s))
  else ptst.getLastD 0

/-- Loop bound `lp_cols = tile_columns if a.gshape[0] > a.gshape[1] else
tile_rows` (line 788 of `heat/linalg/qr.py`; the core file's split-0 Q
phase uses `range(tile_columns)` directly, line 799). -/
def lpCols (m n tileColumns tileRows : ℕ) : ℕ :=
  if m > n then tileColumns else tileRows

/-- Modelled from the spec: the tile grid is "a grid of tiles aligned so
that one tile boundary lies on the matrix diagonal", so a matrix with no
more rows than columns has at most as many tile rows as tile columns.  The
`SquareDiagTiles` class itself is repository code not present under
`src/`. -/
def squareDiagTilesRowsLe (m n tileRows tileColumns : ℕ) : Prop :=
  m ≤ n → tileRows ≤ tileColumns

/-- Q-phase events of one `__q_calc_split0` call: the non-blocking
broadcast of each active rank's local base Q,
`for r in range(diag_process, active_procs[-1] + 1): ... comm.Ibcast(hld, root=r)`
(lines 456-466); `trp` is trimmed to the active ranks (line 770). -/
def qCalcEvents (trp : List ℕ) (tileColumns col : ℕ) : List CommEv :=
  let diag := qPhaseDiagProcess (cumsum trp) col tileColumns
  (List.range' diag (trp.length - 1 + 1 - diag)).map CommEv.localQIbcast

structure Split0Cfg where
  tileRowsPerProc : List ℕ
  tileColumns : ℕ
deriving DecidableEq

/-- R-phase event trace of `__qr_split0` (lines 778-793). -/
def split0REvents (cfg : Split0Cfg) : List CommEv :=
  (List.range cfg.tileColumns).flatMap
    (fun col => rCalcEvents (notCompleted cfg.tileRowsPerProc col))

/-- Q-phase event trace of `__qr_split0` (lines 799-813). -/
def split0QEvents (cfg : Split0Cfg) : List CommEv :=
  (List.range cfg.tileColumns).flatMap
    (fun col => qCalcEvents cfg.tileRowsPerProc cfg.tileColumns col)

/-- Event trace of `__qr_split0`: the R phase always runs; the Q phase runs
only when `calc_q` (the `if not calc_q: return None, a` at lines
794-797). -/
def split0Events (cfg : Split0Cfg) (calcQ : Bool) : List CommEv :=
  split0REvents cfg ++ (if calcQ then split0QEvents cfg else [])

def isQPhaseEv : CommEv → Bool
  | .localQIbcast _ => true
  | _ => false

lemma Heap.get_write_ne (h : Heap α) (l1 l2 : ℕ) (v : α) (hne : l2 ≠ l1) :
    Heap.get (Heap.write h l1 v) l2 = Heap.get h l2 := by
  simp [Heap.get, Heap.write, hne]

/-- C2 (amended): in the split-0 and split-1 drivers, `calc_q = False`
skips the Q phase entirely — the returned R is the same array location with
the same values as the `calc_q = True` call produces, the namedtuple's
first component is `None`, and the `calc_q = False` event trace contains no
Q-phase broadcast.  (The R phase nevertheless computes merge Q factors and
sends them to the diagonal process regardless of `calc_q`; see the
counterexample theorem.) -/
theorem C2_r_identical_no_q_phase (α : Type) (k : QRKernels α) (ow : Bool)
    (h : Heap α) (aLoc : ℕ) (haLoc : aLoc < h.next) (cfg : Split0Cfg) :
    ((qrSplit0H k true ow h aLoc).2.2 = (qrSplit0H k false ow h aLoc).2.2
      ∧ Heap.get (qrSplit0H k true ow h aLoc).1 (qrSplit0H k true ow h aLoc).2.2
        = Heap.get (qrSplit0H k false ow h aLoc).1 (qrSplit0H k false ow h aLoc).2.2)
    ∧ ((qrSplit1H k true ow h aLoc).2.2 = (qrSplit1H k false ow h aLoc).2.2
      ∧ Heap.get (qrSplit1H k true ow h aLoc).1 (qrSplit1H k true ow h aLoc).2.2
        = Heap.get (qrSplit1H k false ow h aLoc).1 (qrSplit1H k false ow h aLoc).2.2)
    ∧ (∀ (a tpp owv : PyVal) (q : Option ℕ) (r : ℕ),
        (qrCall k h a tpp (PyVal.bool false) owv aLoc).2 = Except.ok (q, r) →
        q = Option.none)
    ∧ (∀ e ∈ split0Events cfg false, isQPhaseEv e = false) := by
  have hlocs : ∀ (rcalc : α → α) (eye0 : α),
      (qrSplitPre rcalc eye0 ow h aLoc).2.1 ≠ (qrSplitPre rcalc eye0 ow h aLoc).2.2 := by
    intro rcalc eye0
    cases ow with
    | true =>
      simp only [qrSplitPre, Heap.alloc, if_true]
      omega
    | false =>
      simp [qrSplitPre, Heap.alloc]
  constructor
  · refine ⟨rfl, ?_⟩
    show Heap.get (Heap.write (qrSplitPre k.rsplit0 k.eye0 ow h aLoc).1
        (qrSplitPre k.rsplit0 k.eye0 ow h aLoc).2.2 _)
        (qrSplitPre k.rsplit0 k.eye0 ow h aLoc).2.1 = _
    exact Heap.get_write_ne _ _ _ _ (hlocs k.rsplit0 k.eye0)
  constructor
  · refine ⟨rfl, ?_⟩
    show Heap.get (Heap.write (qrSplitPre k.rsplit1 k.eye0 ow h aLoc).1
        (qrSplitPre k.rsplit1 k.eye0 ow h aLoc).2.2 _)
        (qrSplitPre k.rsplit1 k.eye0 ow h aLoc).2.1 = _
    exact Heap.get_write_ne _ _ _ _ (hlocs k.rsplit1 k.eye0)
  constructor
  · intro a tpp owv q r hq
    unfold qrCall at hq
    cases hval : qrValidate a tpp (PyVal.bool false) owv with
    | error e =>
      rw [hval] at hq
      simp at hq
    | ok path =>
      rw [hval] at hq
      simp only [asBool] at hq
      simp at hq
      exact hq.1.symm
  · intro e he
    simp only [split0Events, Bool.false_eq_true, if_false, List.append_nil] at he
    simp only [split0REvents, List.mem_flatMap, List.mem_range] at he
    obtain ⟨col, _, hin⟩ := he
    simp only [rCalcEvents, List.mem_flatMap] at hin
    obtain ⟨p, _, hp⟩ := hin
    simp only [List.mem_cons, List.not_mem_nil, or_false] at hp
    rcases hp with rfl | rfl <;> rfl

/-- Witness for C2 (amended) at a two-rank configuration with integer-valued
kernels. -/
theorem C2_r_identical_no_q_phase_witness :
    (qrSplit0H (QRKernels.mk id id id id 0 (fun x => (x, x))) true false
        (Heap.mk (fun _ => (0 : ℤ)) 1) 0).2.2
      = (qrSplit0H (QRKernels.mk id id id id 0 (fun x => (x, x))) false false
          (Heap.mk (fun _ => (0 : ℤ)) 1) 0).2.2
    ∧ isQPhaseEv (CommEv.merge 0 1) = false := by
  have hc := C2_r_identical_no_q_phase ℤ (QRKernels.mk id id id id 0 (fun x => (x, x)))
    false (Heap.mk (fun _ => (0 : ℤ)) 1) 0 Nat.one_pos (Split0Cfg.mk [1, 1] 1)
  exact ⟨hc.1.1, hc.2.2.2 (CommEv.merge 0 1) (by decide)⟩

/-- Counterexample for C2 as stated: with two active ranks and one tile
column, the `calc_q = False` run still issues the transfer of the
merge-produced Q factor from rank 1 to the diagonal rank 0
(`__send_q_to_diag_pr` is called unconditionally inside the R phase), so
the `calc_q = False` path does communicate Q data. -/
theorem C2_counterexample :
    CommEv.sendQToDiag 1 0 ∈ split0Events (Split0Cfg.mk [1, 1] 1) false := by
  decide

/-- C9: the `else proc_tile_start[-1]` alternative of the Q-phase
diagonal-rank selection is dead code: each Q-phase iteration has `col`
strictly below the loop bound — `tile_columns` in `heat/core/linalg/qr.py`
(line 799), `lp_cols` in `heat/linalg/qr.py` (line 810), and `lp_cols` never
exceeds `tile_columns` for a square-diagonal tile grid — so
`col != tile_columns` always holds and `diag_process` is always the first
index at which `proc_tile_start` exceeds `col`. -/
theorem C9_else_branch_dead (ptst : List ℕ) (m n tileColumns tileRows col : ℕ)
    (hinv : squareDiagTilesRowsLe m n tileRows tileColumns) :
    (col < tileColumns →
      col ≠ tileColumns ∧
      qPhaseDiagProcess ptst col tileColumns
        = ptst.findIdx (fun s => decide (col < s)))
    ∧ (col < lpCols m n tileColumns tileRows →
      col ≠ tileColumns ∧
      qPhaseDiagProcess ptst col tileColumns
        = ptst.findIdx (fun s => decide (col < s))) := by
  constructor
  · intro hc
    have hne : col ≠ tileColumns := by omega
    exact ⟨hne, by simp [qPhaseDiagProcess, hne]⟩
  · intro hc
    have hlt : col < tileColumns := by
      unfold lpCols at hc
      unfold squareDiagTilesRowsLe at hinv
      by_cases hm : m > n
      · rw [if_pos hm] at hc
        exact hc
      · rw [if_neg hm] at hc
        have := hinv (by omega)
        omega
    have hne : col ≠ tileColumns := by omega
    exact ⟨hne, by simp [qPhaseDiagProcess, hne]⟩

/-- Witness for C9 at `proc_tile_start = [1, 4]`, `col = 2`,
`tile_columns = 3` (and a 5-by-3 global shape with 2 tile rows). -/
theorem C9_else_branch_dead_witness :
    2 ≠ 3 ∧ qPhaseDiagProcess [1, 4] 2 3 = [1, 4].findIdx (fun s => decide (2 < s)) :=
  (C9_else_branch_dead [1, 4] 5 3 3 2 2 (fun hc => absurd hc (by decide))).1 (by decide)

/-- Counterexample for C7 as stated: two distinct in-flight transfers — tile
column 0, loop 0, participants (0, 1) versus tile column 1, loop 1,
participants (2, 1) — use exactly the same four message tags, because
`__send_q_to_diag_pr` derives every tag from `pr1` alone. -/
theorem C7_counterexample :
    ((0, 0, 0, 1) : ℕ × ℕ × ℕ × ℕ) ≠ (1, 1, 2, 1)
    ∧ sendTags 0 0 0 1 = sendTags 1 1 2 1 :=
  ⟨by decide, rfl⟩

/-- C7 (amended): the four tags of one transfer are derived deterministically
from the sending participant rank `pr1` alone (not from the loop index, the
other participant, or the tile column); they are pairwise distinct, two
transfers with the same `pr1` reuse exactly the same tags, and two
transfers with different `pr1` use disjoint tag sets. -/
theorem C7_tags_from_pr1_only (c l p0 p1 c' l' p0' p1' : ℕ) :
    (sendTags c l p0 p1).Pairwise (· ≠ ·)
    ∧ (p1 = p1' → sendTags c l p0 p1 = sendTags c' l' p0' p1')
    ∧ (p1 ≠ p1' → ∀ t ∈ sendTags c l p0 p1, t ∉ sendTags c' l' p0' p1') := by
  refine ⟨?_, fun h => by rw [sendTags, sendTags, h], fun hne t ht => ?_⟩
  · have hs := tag_slot_ne p1 p1
    refine List.Pairwise.cons (fun x hx => ?_) (List.Pairwise.cons (fun x hx => ?_)
      (List.Pairwise.cons (fun x hx => ?_) (List.Pairwise.cons (fun x hx => ?_)
        List.Pairwise.nil)))
    · simp only [List.mem_cons, List.not_mem_nil, or_false] at hx
      rcases hx with rfl | rfl | rfl
      · exact hs.1
      · exact hs.2.1
      · exact hs.2.2.1
    · simp only [List.mem_cons, List.not_mem_nil, or_false] at hx
      rcases hx with rfl | rfl
      · exact hs.2.2.2.1
      · exact hs.2.2.2.2.1
    · simp only [List.mem_cons, List.not_mem_nil, or_false] at hx
      rcases hx with rfl
      exact hs.2.2.2.2.2
    · exact absurd hx (List.not_mem_nil x)
  · intro ht'
    simp only [sendTags, List.mem_cons, List.not_mem_nil, or_false] at ht ht'
    have hqs := tag_slot_ne p1 p1'
    have hqs' := tag_slot_ne p1' p1
    rcases ht with rfl | rfl | rfl | rfl <;> rcases ht' with h | h | h | h
    · exact hne (tagQShape_inj h)
    · exact hqs.1 h
    · exact hqs.2.1 h
    · exact hqs.2.2.1 h
    · exact hqs'.1 h.symm
    · exact hne (tagQData_inj h)
    · exact hqs.2.2.2.1 h
    · exact hqs.2.2.2.2.1 h
    · exact hqs'.2.1 h.symm
    · exact hqs'.2.2.2.1 h.symm
    · exact hne (tagUShape_inj h)
    · exact hqs.2.2.2.2.2 h
    · exact hqs'.2.2.1 h.symm
    · exact hqs'.2.2.2.2.1 h.symm
    · exact hqs'.2.2.2.2.2 h.symm
    · exact hne (tagLShape_inj h)

/-- Witness for C7 (amended) at ranks `pr1 = 1` and `pr1' = 2`. -/
theorem C7_tags_from_pr1_only_witness :
    (sendTags 0 0 0 1).Pairwise (· ≠ ·)
    ∧ tagQShape 1 ∉ sendTags 1 1 2 2 := by
  have h := C7_tags_from_pr1_only 0 0 0 1 1 1 2 2
  exact ⟨h.1, h.2.2 (by decide) (tagQShape 1) (by simp [sendTags])⟩

lemma Heap.get_write_self (h : Heap α) (l : ℕ) (v : α) :
    Heap.get (Heap.write h l v) l = v := by
  simp [Heap.get, Heap.write]

lemma Heap.get_alloc_ne (h : Heap α) (v : α) (l : ℕ) (hl : l < h.next) :
    Heap.get (Heap.alloc h v).1 l = Heap.get h l := by
  simp only [Heap.get, Heap.alloc]
  rw [if_neg (by omega)]

lemma qrSplitPre_false_eq (rcalc : α → α) (eye0 : α) (h : Heap α) (aLoc : ℕ) :
    qrSplitPre rcalc eye0 false h aLoc
      = (Heap.write (Heap.alloc (Heap.alloc h (Heap.get h aLoc)).1 eye0).1 h.next
          (rcalc (Heap.get (Heap.alloc (Heap.alloc h (Heap.get h aLoc)).1 eye0).1 h.next)),
         h.next, h.next + 1) := rfl

lemma qrSplitPre_true_eq (rcalc : α → α) (eye0 : α) (h : Heap α) (aLoc : ℕ) :
    qrSplitPre rcalc eye0 true h aLoc
      = (Heap.write (Heap.alloc h eye0).1 aLoc
          (rcalc (Heap.get (Heap.alloc h eye0).1 aLoc)),
         aLoc, h.next) := rfl

lemma qrSplitPre_false_get (rcalc : α → α) (eye0 : α) (h : Heap α) (aLoc : ℕ)
    (hlt : aLoc < h.next) :
    Heap.get (qrSplitPre rcalc eye0 false h aLoc).1 aLoc = Heap.get h aLoc := by
  rw [qrSplitPre_false_eq]
  dsimp only
  rw [Heap.get_write_ne _ _ _ _ (by omega)]
  rw [Heap.get_alloc_ne _ _ _ (show aLoc < (Heap.alloc h (Heap.get h aLoc)).1.next by
    simp only [Heap.alloc]
    omega)]
  exact Heap.get_alloc_ne _ _ _ hlt

lemma qrSplitPre_true_get (rcalc : α → α) (eye0 : α) (h : Heap α) (aLoc : ℕ)
    (hlt : aLoc < h.next) :
    Heap.get (qrSplitPre rcalc eye0 true h aLoc).1 aLoc = rcalc (Heap.get h aLoc) := by
  rw [qrSplitPre_true_eq]
  dsimp only
  rw [Heap.get_write_self]
  rw [Heap.get_alloc_ne _ _ _ hlt]

/-- C3 (amended): for split-0 and split-1 inputs, `overwrite_a = False`
leaves every value of the original array unchanged (the drivers first take
`a = a.copy()` and mutate only the copy), and `overwrite_a = True` returns
the original location as the R factor with the R values written in place;
for `a.split is None` (lines 100-103) the flag is ignored: the input array
is never overwritten and R is a fresh array, for either value of
`overwrite_a`. -/
theorem C3_overwrite_semantics (α : Type) (k : QRKernels α) (calcQ : Bool)
    (h : Heap α) (aLoc : ℕ) (haLoc : aLoc < h.next) :
    (Heap.get (qrSplit0H k calcQ false h aLoc).1 aLoc = Heap.get h aLoc
      ∧ Heap.get (qrSplit1H k calcQ false h aLoc).1 aLoc = Heap.get h aLoc)
    ∧ ((qrSplit0H k calcQ true h aLoc).2.2 = aLoc
      ∧ Heap.get (qrSplit0H k calcQ true h aLoc).1 aLoc = k.rsplit0 (Heap.get h aLoc)
      ∧ (qrSplit1H k calcQ true h aLoc).2.2 = aLoc
      ∧ Heap.get (qrSplit1H k calcQ true h aLoc).1 aLoc = k.rsplit1 (Heap.get h aLoc))
    ∧ (Heap.get (qrSplitNoneH k h aLoc).1 aLoc = Heap.get h aLoc
      ∧ (qrSplitNoneH k h aLoc).2.2 ≠ aLoc) := by
  have hq0 : ∀ (rcalc : α → α) (ow : Bool),
      aLoc ≠ (qrSplitPre rcalc k.eye0 ow h aLoc).2.2 := by
    intro rcalc ow
    cases ow with
    | true =>
      rw [qrSplitPre_true_eq]
      dsimp only
      omega
    | false =>
      rw [qrSplitPre_false_eq]
      dsimp only
      omega
  refine ⟨⟨?_, ?_⟩, ⟨?_, ?_, ?_, ?_⟩, ?_, ?_⟩
  · cases calcQ with
    | false => exact qrSplitPre_false_get k.rsplit0 k.eye0 h aLoc haLoc
    | true =>
      show Heap.get (Heap.write _ _ _) _ = _
      rw [Heap.get_write_ne _ _ _ _ (hq0 k.rsplit0 false)]
      exact qrSplitPre_false_get k.rsplit0 k.eye0 h aLoc haLoc
  · cases calcQ with
    | false => exact qrSplitPre_false_get k.rsplit1 k.eye0 h aLoc haLoc
    | true =>
      show Heap.get (Heap.write _ _ _) _ = _
      rw [Heap.get_write_ne _ _ _ _ (hq0 k.rsplit1 false)]
      exact qrSplitPre_false_get k.rsplit1 k.eye0 h aLoc haLoc
  · cases calcQ with
    | false =>
      show (qrSplitPre k.rsplit0 k.eye0 true h aLoc).2.1 = aLoc
      rw [qrSplitPre_true_eq]
    | true =>
      show (qrSplitPre k.rsplit0 k.eye0 true h aLoc).2.1 = aLoc
      rw [qrSplitPre_true_eq]
  · cases calcQ with
    | false => exact qrSplitPre_true_get k.rsplit0 k.eye0 h aLoc haLoc
    | true =>
      show Heap.get (Heap.write _ _ _) _ = _
      rw [Heap.get_write_ne _ _ _ _ (hq0 k.rsplit0 true)]
      exact qrSplitPre_true_get k.rsplit0 k.eye0 h aLoc haLoc
  · cases calcQ with
    | false =>
      show (qrSplitPre k.rsplit1 k.eye0 true h aLoc).2.1 = aLoc
      rw [qrSplitPre_true_eq]
    | true =>
      show (qrSplitPre k.rsplit1 k.eye0 true h aLoc).2.1 = aLoc
      rw [qrSplitPre_true_eq]
  · cases calcQ with
    | false => exact qrSplitPre_true_get k.rsplit1 k.eye0 h aLoc haLoc
    | true =>
      show Heap.get (Heap.write _ _ _) _ = _
      rw [Heap.get_write_ne _ _ _ _ (hq0 k.rsplit1 true)]
      exact qrSplitPre_true_get k.rsplit1 k.eye0 h aLoc haLoc
  · show Heap.get (Heap.alloc _ _).1 _ = _
    rw [Heap.get_alloc_ne _ _ _
      (show aLoc < (Heap.alloc h (k.qrNone (Heap.get h aLoc)).1).1.next by
        simp only [Heap.alloc]
        omega)]
    exact Heap.get_alloc_ne _ _ _ haLoc
  · show (Heap.alloc (Heap.alloc h (k.qrNone (Heap.get h aLoc)).1).1
        (k.qrNone (Heap.get h aLoc)).2).2 ≠ aLoc
    simp only [Heap.alloc]
    omega

/-- Witness for C3 (amended) with integer-valued kernels on a one-cell
heap. -/
theorem C3_overwrite_semantics_witness :
    Heap.get (qrSplit0H (QRKernels.mk (· + 1) id (· + 2) id 0 (fun x => (x, x)))
        true false (Heap.mk (fun _ => (5 : ℤ)) 1) 0).1 0 = 5
    ∧ (qrSplit0H (QRKernels.mk (· + 1) id (· + 2) id 0 (fun x => (x, x)))
        true true (Heap.mk (fun _ => (5 : ℤ)) 1) 0).2.2 = 0 := by
  have hc := C3_overwrite_semantics ℤ
    (QRKernels.mk (· + 1) id (· + 2) id 0 (fun x => (x, x))) true
    (Heap.mk (fun _ => (5 : ℤ)) 1) 0 Nat.one_pos
  exact ⟨hc.1.1, hc.2.1.1⟩

/-- Counterexample for C3 as stated: a `split = None` DNDarray passes
validation, and with `overwrite_a = True` the call still leaves the
original storage untouched — R is a freshly allocated array (location 2,
holding `qrNone`'s R value 7), while the original location 0 keeps its old
value 5 — so `overwrite_a = True` does not leave R in the original
storage for every valid input. -/
theorem C3_counterexample :
    ((qrCall (QRKernels.mk id id id id 0 (fun x => (x + 1, x + 2)))
        (Heap.mk (fun _ => (5 : ℤ)) 1) (PyVal.dnd Option.none 2) (PyVal.int 1)
        (PyVal.bool true) (PyVal.bool true) 0).1.store 0 = 5)
    ∧ ((qrCall (QRKernels.mk id id id id 0 (fun x => (x + 1, x + 2)))
        (Heap.mk (fun _ => (5 : ℤ)) 1) (PyVal.dnd Option.none 2) (PyVal.int 1)
        (PyVal.bool true) (PyVal.bool true) 0).2
      = Except.ok (Option.some 1, 2))
    ∧ ((qrCall (QRKernels.mk id id id id 0 (fun x => (x + 1, x + 2)))
        (Heap.mk (fun _ => (5 : ℤ)) 1) (PyVal.dnd Option.none 2) (PyVal.int 1)
        (PyVal.bool true) (PyVal.bool true) 0).1.store 2 = 7)
    ∧ (5 : ℤ) ≠ 7 := by
  refine ⟨rfl, rfl, rfl, by decide⟩

/-- C8: every invalid input to `qr` produces the corresponding `TypeError`
or `ValueError` synchronously: the heap is returned unchanged and no
dispatch path (hence no communication and no mutation) is entered.  The
five cases follow the source's check order (lines 73-90). -/
theorem C8_validation_errors (α : Type) (k : QRKernels α) (h : Heap α) (aLoc : ℕ)
    (a tpp cq ow : PyVal) :
    (isDNDarrayVal a = false →
      qrCall k h a tpp cq ow aLoc = (h, Except.error QRError.typeErrorNotDNDarray))
    ∧ (isDNDarrayVal a = true → isIntOrTensorVal tpp = false →
      qrCall k h a tpp cq ow aLoc = (h, Except.error QRError.typeErrorTilesPerProc))
    ∧ (isDNDarrayVal a = true → isIntOrTensorVal tpp = true → isBoolVal cq = false →
      qrCall k h a tpp cq ow aLoc = (h, Except.error QRError.typeErrorCalcQ))
    ∧ (isDNDarrayVal a = true → isIntOrTensorVal tpp = true → isBoolVal cq = true →
      isBoolVal ow = false →
      qrCall k h a tpp cq ow aLoc = (h, Except.error QRError.typeErrorOverwriteA))
    ∧ (∀ split ndim, a = PyVal.dnd split ndim → ndim ≠ 2 →
      isIntOrTensorVal tpp = true → isTensorVal tpp = false →
      isBoolVal cq = true → isBoolVal ow = true →
      qrCall k h a tpp cq ow aLoc = (h, Except.error QRError.valueErrorNot2D)) := by
  refine ⟨fun h1 => ?_, fun h1 h2 => ?_, fun h1 h2 h3 => ?_, fun h1 h2 h3 h4 => ?_,
    fun split ndim h1 h2 h3 h4 h5 h6 => ?_⟩
  · have hv : qrValidate a tpp cq ow = .error .typeErrorNotDNDarray := by
      simp [qrValidate, h1]
    simp [qrCall, hv]
  · have hv : qrValidate a tpp cq ow = .error .typeErrorTilesPerProc := by
      simp [qrValidate, h1, h2]
    simp [qrCall, hv]
  · have hv : qrValidate a tpp cq ow = .error .typeErrorCalcQ := by
      simp [qrValidate, h1, h2, h3]
    simp [qrCall, hv]
  · have hv : qrValidate a tpp cq ow = .error .typeErrorOverwriteA := by
      simp [qrValidate, h1, h2, h3, h4]
    simp [qrCall, hv]
  · have hv : qrValidate a tpp cq ow = .error .valueErrorNot2D := by
      subst h1
      simp [qrValidate, h2, h3, h4, h5, h6, isDNDarrayVal]
    simp [qrCall, hv]

/-- Witness for C8 at concrete invalid inputs (a non-DNDarray first
argument, and a 3-dimensional DNDarray). -/
theorem C8_validation_errors_witness :
    qrCall (QRKernels.mk (id : ℤ → ℤ) id id id 0 (fun x => (x, x)))
        (Heap.mk (fun _ => (0 : ℤ)) 1) PyVal.other (PyVal.int 1)
        (PyVal.bool true) (PyVal.bool false) 0
      = (Heap.mk (fun _ => (0 : ℤ)) 1, Except.error QRError.typeErrorNotDNDarray)
    ∧ qrCall (QRKernels.mk (id : ℤ → ℤ) id id id 0 (fun x => (x, x)))
        (Heap.mk (fun _ => (0 : ℤ)) 1) (PyVal.dnd Option.none 3) (PyVal.int 1)
        (PyVal.bool true) (PyVal.bool false) 0
      = (Heap.mk (fun _ => (0 : ℤ)) 1, Except.error QRError.valueErrorNot2D) := by
  constructor
  · exact (C8_validation_errors ℤ (QRKernels.mk id id id id 0 (fun x => (x, x)))
      (Heap.mk (fun _ => (0 : ℤ)) 1) 0 PyVal.other (PyVal.int 1)
      (PyVal.bool true) (PyVal.bool false)).1 rfl
  · exact (C8_validation_errors ℤ (QRKernels.mk id id id id 0 (fun x => (x, x)))
      (Heap.mk (fun _ => (0 : ℤ)) 1) 0 (PyVal.dnd Option.none 3) (PyVal.int 1)
      (PyVal.bool true) (PyVal.bool false)).2.2.2.2 Option.none 3 rfl
      (by decide) rfl rfl rfl rfl

/-- C10: for every `torch.Tensor` passed as `tiles_per_proc` — any element
count, in particular a single-element tensor — `qr` raises the
unconditional `ValueError` of lines 84-88 before dispatching to any
factorization path (the heap is unchanged and no path is entered), even
though the earlier `isinstance` type check at line 75 accepts tensors. -/
theorem C10_tensor_tiles_per_proc (α : Type) (k : QRKernels α) (h : Heap α)
    (aLoc : ℕ) (split : Option (Fin 2)) (ndim numel : ℕ) (cq ow : Bool) :
    isIntOrTensorVal (PyVal.tensor numel) = true
    ∧ qrCall k h (PyVal.dnd split ndim) (PyVal.tensor numel) (PyVal.bool cq)
        (PyVal.bool ow) aLoc
      = (h, Except.error QRError.valueErrorTensorTilesPerProc) := by
  refine ⟨rfl, ?_⟩
  have hv : qrValidate (PyVal.dnd split ndim) (PyVal.tensor numel) (PyVal.bool cq)
      (PyVal.bool ow) = .error .valueErrorTensorTilesPerProc := by
    simp [qrValidate, isDNDarrayVal, isIntOrTensorVal, isBoolVal, isTensorVal]
  simp [qrCall, hv]

/-! ### Communication events of `__qr_split1_loop` (file `heat/linalg/qr.py`)

`__qr_split1_loop(a_tiles, q_tiles, diag_pr, dim0, calc_q, dim1=None,
empties=None)` (lines 901-1052) broadcasts the diagonal tile's orthogonal
factor (line 916) and then, for every tile row below the diagonal, the
merged factor (line 973).  Ranks listed in `empties` receive the factor's
shape via a point-to-point message first (tag 111 at lines 924-931, tag 222
at lines 987-994) and then join the broadcast as receivers.  The caller
`__qr_split1` (lines 889-891) passes *no* `empties` argument, so the
parameter defaults to the empty tensor (lines 904-905).  `calc_q` gates
only local tensor updates, not communication, so the event trace below does
not depend on it. -/

inductive S1Ev where
  | bcast (root : ℕ)
  | shapeSend (dest tag : ℕ)
  | shapeRecv (src tag : ℕ)
deriving DecidableEq

/-- Events one rank issues for one broadcast stage of `__qr_split1_loop`
(the diagonal-tile stage with `tag = 111`, lines 914-944, or one row-merge
stage with `tag = 222`, lines 966-1011).  The branch order follows the
source: the diagonal rank broadcasts then sends the shape to every empty
rank; an empty rank receives the shape then joins the broadcast; the two
remaining branches (`rank < diag_pr` and `rank > diag_pr`) each issue the
same single broadcast (their further work is local). -/
def split1StageEvents (diagPr : ℕ) (empties : List ℕ) (rank tag : ℕ) : List S1Ev :=
  if rank = diagPr then
    S1Ev.bcast diagPr :: empties.map (fun i => S1Ev.shapeSend i tag)
  else if rank ∈ empties then
    [S1Ev.shapeRecv diagPr tag, S1Ev.bcast diagPr]
  else
    [S1Ev.bcast diagPr]

/-- Event trace of one `__qr_split1_loop` call for one rank: the
diagonal-tile stage, then one row-merge stage per
`row in range(dim0 + 1, tile_rows)` (line 965). -/
def split1LoopEvents (tileRows diagPr dim0 : ℕ) (empties : List ℕ) (rank : ℕ) :
    List S1Ev :=
  split1StageEvents diagPr empties rank 111 ++
    (List.range' (dim0 + 1) (tileRows - (dim0 + 1))).flatMap
      (fun _ => split1StageEvents diagPr empties rank 222)

structure Split1Cfg where
  tileColsPerProc : List ℕ
  tileRows : ℕ
  tileColumns : ℕ
  m : ℕ
  n : ℕ
deriving DecidableEq

/-- Event trace of `__qr_split1` (lines 875-891) for one rank: for each
`dcol in range(lp_cols)` the diagonal process is the first rank whose
cumulative tile-column count exceeds `dcol` (lines 884-885), and
`__qr_split1_loop` is invoked *without* an `empties` argument (lines
889-891), i.e. with the empty list. -/
def split1DriverEvents (cfg : Split1Cfg) (rank : ℕ) : List S1Ev :=
  (List.range (lpCols cfg.m cfg.n cfg.tileColumns cfg.tileRows)).flatMap
    (fun dcol => split1LoopEvents cfg.tileRows
      ((notCompleted cfg.tileColsPerProc dcol).headD 0) dcol [] rank)

def isShapeRecv : S1Ev → Bool
  | .shapeRecv _ _ => true
  | _ => false

def isBcastEv : S1Ev → Bool
  | .bcast _ => true
  | _ => false

lemma filter_bcast_stage (diagPr : ℕ) (empties : List ℕ) (rank tag : ℕ) :
    (split1StageEvents diagPr empties rank tag).filter isBcastEv
      = [S1Ev.bcast diagPr] := by
  unfold split1StageEvents
  split_ifs with h1 h2
  · simp only [List.filter_cons]
    have hmap : (empties.map (fun i => S1Ev.shapeSend i tag)).filter isBcastEv = [] := by
      induction empties with
      | nil => rfl
      | cons a t ih => simpa [List.filter_cons, isBcastEv] using ih
    simp [isBcastEv, hmap]
  · simp [isBcastEv]
  · simp [isBcastEv]

lemma filter_bcast_loop (tileRows diagPr dim0 : ℕ) (empties : List ℕ) (rank : ℕ) :
    (split1LoopEvents tileRows diagPr dim0 empties rank).filter isBcastEv
      = S1Ev.bcast diagPr ::
        (List.range' (dim0 + 1) (tileRows - (dim0 + 1))).flatMap
          (fun _ => [S1Ev.bcast diagPr]) := by
  unfold split1LoopEvents
  rw [List.filter_append, filter_bcast_stage]
  have hflat : ∀ l : List ℕ,
      ((l.flatMap (fun _ => split1StageEvents diagPr empties rank 222)).filter isBcastEv)
        = l.flatMap (fun _ => [S1Ev.bcast diagPr]) := by
    intro l
    induction l with
    | nil => rfl
    | cons a t ih =>
      simp only [List.flatMap_cons, List.filter_append, filter_bcast_stage, ih]
  rw [hflat]
  rfl

lemma stage_events_no_empties (diagPr rank tag : ℕ) :
    ∀ e ∈ split1StageEvents diagPr [] rank tag, e = S1Ev.bcast diagPr := by
  intro e he
  unfold split1StageEvents at he
  split_ifs at he <;> simp_all

/-- C4 (amended): `__qr_split1_loop` supports an `empties` argument under
which each empty rank first receives the factor's shape via a
point-to-point message from the diagonal rank (tag 111 for the diagonal
tile, tag 222 for each row merge) and then participates in the broadcast
as a receiver, and every rank — diagonal, empty, or ordinary — issues the
same broadcast sequence in the same order; but `__qr_split1` invokes the
loop without passing `empties`, so in the split-1 driver no rank is ever
classified empty: every rank (in particular one owning no local data)
issues only broadcasts and never receives a point-to-point shape
message. -/
theorem C4_empty_rank_protocol (tileRows diagPr dim0 : ℕ) (empties : List ℕ)
    (rank rank' : ℕ) :
    (rank ∈ empties → rank ≠ diagPr →
      split1LoopEvents tileRows diagPr dim0 empties rank
        = [S1Ev.shapeRecv diagPr 111, S1Ev.bcast diagPr] ++
          (List.range' (dim0 + 1) (tileRows - (dim0 + 1))).flatMap
            (fun _ => [S1Ev.shapeRecv diagPr 222, S1Ev.bcast diagPr]))
    ∧ ((split1LoopEvents tileRows diagPr dim0 empties rank).filter isBcastEv
        = (split1LoopEvents tileRows diagPr dim0 empties rank').filter isBcastEv)
    ∧ (∀ (cfg : Split1Cfg) (r : ℕ), ∀ e ∈ split1DriverEvents cfg r,
        isShapeRecv e = false) := by
  refine ⟨fun hmem hne => ?_, ?_, fun cfg r e he => ?_⟩
  · unfold split1LoopEvents split1StageEvents
    rw [if_neg hne, if_pos hmem, if_neg hne, if_pos hmem]
  · rw [filter_bcast_loop, filter_bcast_loop]
  · unfold split1DriverEvents at he
    rw [List.mem_flatMap] at he
    obtain ⟨dcol, _, he⟩ := he
    unfold split1LoopEvents at he
    rw [List.mem_append] at he
    rcases he with he | he
    · rw [stage_events_no_empties _ _ _ e he]
      rfl
    · rw [List.mem_flatMap] at he
      obtain ⟨row, _, he⟩ := he
      rw [stage_events_no_empties _ _ _ e he]
      rfl

/-- Witness for C4 (amended): rank 2 is an empty rank under
`empties = [2]` with diagonal rank 0 and two tile rows. -/
theorem C4_empty_rank_protocol_witness :
    split1LoopEvents 2 0 0 [2] 2
      = [S1Ev.shapeRecv 0 111, S1Ev.bcast 0, S1Ev.shapeRecv 0 222, S1Ev.bcast 0]
    ∧ isShapeRecv (S1Ev.bcast 0) = false := by
  have h := C4_empty_rank_protocol 2 0 0 [2] 2 0
  refine ⟨?_, ?_⟩
  · rw [h.1 (by decide) (by decide)]
    rfl
  · exact h.2.2 (Split1Cfg.mk [1] 1 1 1 1) 0 (S1Ev.bcast 0) (by decide)

/-- Counterexample for C4 as stated: in the configuration with
`tile_columns_per_process = [1, 1, 0]` (rank 2 owns no local data), two
tile rows and a square 4-by-4 global shape, the driver-issued trace of the
empty rank 2 consists of broadcasts only — it never receives the
broadcast factor's shape via a point-to-point message, because
`__qr_split1` never passes `empties` to `__qr_split1_loop`. -/
theorem C4_counterexample :
    (Split1Cfg.mk [1, 1, 0] 2 2 4 4).tileColsPerProc.getD 2 0 = 0
    ∧ split1DriverEvents (Split1Cfg.mk [1, 1, 0] 2 2 4 4) 2
      = [S1Ev.bcast 0, S1Ev.bcast 0, S1Ev.bcast 1]
    ∧ (split1DriverEvents (Split1Cfg.mk [1, 1, 0] 2 2 4 4) 2).filter isShapeRecv = [] := by
  refine ⟨rfl, by decide, by decide⟩

/-! ### The global merge index of `__global_q_dict_set`

`__global_q_dict_set(q_dict_col, col, a_tiles, q_tiles)` (lines 110-232 of
`heat/core/linalg/qr.py`) replays a column's Partial Factor Records into
the "global merge dictionary".  Keys are the strings
`str(loop) + "p0" + str(pr0) + "p1" + str(pr1) + "e"` built during the R
phase; they are processed in ascending Python string order
(`merge_list.sort()`, line 153).  Local tensors are embedded as integer
matrices (`Mat`); `torch.Tensor.__matmul__` is `Mat.mul` and tensor slicing
is `Mat.slice`.  The dictionary is embedded as a partial map from tile
coordinates; the per-record snapshot (`curr_keys = set(...keys())` and
`hold_dict = global_merge_dict.copy()`, lines 184/203) is the map taken
before the record's four sub-block updates.  Python iterates the
intersection sets `s00..s11` in unspecified set order; the embedding
iterates them in ascending index order, which is observationally equal
because the writes of one block target pairwise distinct keys and all
reads go to the snapshot. -/

structure Mat where
  rows : ℕ
  cols : ℕ
  ent : ℕ → ℕ → ℤ

/-- Embedding of `torch.matmul` on the embedded matrices. -/
def Mat.mul (A B : Mat) : Mat :=
  Mat.mk A.rows B.cols (fun i j => ∑ x ∈ Finset.range A.cols, A.ent i x * B.ent x j)

/-- Submatrix `A[r0:r1, c0:c1]`. -/
def Mat.slice (A : Mat) (r0 r1 c0 c1 : ℕ) : Mat :=
  Mat.mk (r1 - r0) (c1 - c0) (fun i j => A.ent (r0 + i) (c0 + j))

def zeroMat : Mat := Mat.mk 0 0 (fun _ _ => 0)

/-- One Partial Factor Record as read by `__global_q_dict_set`:
`q_dict_col[key][0]` is the merge Q factor, `q_dict_col[key][1]` the shape
of the upper block that was stacked to produce it (`base_size`). -/
structure QRec where
  lpq : Mat
  baseSize : ℕ × ℕ

/-- Python `str.find`: index of the first occurrence of `pat` (our keys
always contain the searched patterns; an absent pattern yields the string
length where Python would yield `-1`). -/
def subFind : List Char → List Char → ℕ
  | [], _ => 0
  | c :: rest, pat => if pat.isPrefixOf (c :: rest) then 0 else subFind rest pat + 1

/-- Python `int(...)` on a decimal digit string. -/
def strToNat (s : List Char) : ℕ :=
  s.foldl (fun acc c => acc * 10 + (c.toNat - 48)) 0

/-- The global merge dictionary: a partial map from tile coordinates to
blocks. -/
def GMD : Type := ℕ × ℕ → Option Mat

def gmdUpdate (d : GMD) (k : ℕ × ℕ) (v : Mat) : GMD :=
  fun k' => if k' = k then Option.some v else d k'

/-- One sub-block update of `__global_q_dict_set` (each of the four blocks
(J), (K), (L), (M) at lines 205-231 is an instance): the populated entries
of the source tile-column `src` are read from the snapshot; if none exist
the block is inserted at `(src, dst)`, otherwise for every populated
`(i, src)` the product `hold[(i, src)] @ blk` is written at `(i, dst)`. -/
def blockStep (qtc : ℕ) (hold : GMD) (src dst : ℕ) (blk : Mat) (d : GMD) : GMD :=
  let s := (List.range qtc).filter (fun i => (hold (i, src)).isSome)
  if s = [] then gmdUpdate d (src, dst) blk
  else s.foldl (fun d' i => gmdUpdate d' (i, dst) (Mat.mul ((hold (i, src)).getD zeroMat) blk)) d

def lookupRec (l : List (List Char × QRec)) (k : List Char) : Option QRec :=
  (l.find? (fun p => decide (p.1 = k))).map Prod.snd

/-- Processing of one Partial Factor Record (one iteration of the
`for key in merge_list` loop, lines 156-231): parse the participant ranks
out of the key (lines 159-163), cut the factor into its four sub-blocks by
`base_size[0]` (lines 169-172), map the participants to their global
tile-row positions `col0`, `col1` (lines 174-178), and apply the four
sub-block updates (J), (K), (L), (M) against the shared snapshot. -/
def gqdsStep (qtc : ℕ) (ptstShift : List ℕ) (diagProc col : ℕ)
    (qDictCol : List Char → Option QRec) (d : GMD) (key : List Char) : GMD :=
  let p0 := subFind key ['p', '0']
  let p1 := subFind key ['p', '1']
  let e := subFind key ['e']
  let r0 := strToNat ((key.drop (p0 + 2)).take (p1 - (p0 + 2)))
  let r1 := strToNat ((key.drop (p1 + 2)).take (e - (p1 + 2)))
  match qDictCol key with
  | Option.none => d
  | Option.some qrec =>
    let lpq := qrec.lpq
    let bs := qrec.baseSize.1
    let topLeft := Mat.slice lpq 0 bs 0 bs
    let topRight := Mat.slice lpq 0 bs bs lpq.cols
    let bottomLeft := Mat.slice lpq bs lpq.rows 0 bs
    let bottomRight := Mat.slice lpq bs lpq.rows bs lpq.cols
    let col0 := if diagProc = r0 then col else ptstShift.getD r0 0
    let col1 := ptstShift.getD r1 0
    let hold := d
    let d1 := blockStep qtc hold col0 col0 topLeft d
    let d2 := blockStep qtc hold col0 col1 topRight d1
    let d3 := blockStep qtc hold col1 col0 bottomLeft d2
    blockStep qtc hold col1 col1 bottomRight d3

/-- The sorted `merge_list` (lines 152-153): the record keys in ascending
string order. -/
def mergeListSorted (qDictCol : List (List Char × QRec)) : List (List Char) :=
  List.insertionSort (fun a b => a ≤ b) (qDictCol.map Prod.fst)

/-- Embedding of `__global_q_dict_set` with `global_merge_dict = None`
(fresh dictionary): compute `proc_tile_start` and the diagonal process
(lines 137-144), then fold the record-processing step over the sorted key
list. -/
def globalQDictSet (qDictCol : List (List Char × QRec)) (col : ℕ)
    (tileRowsPerProc : List ℕ) (qTileColumns : ℕ) : GMD :=
  let ptst := cumsum tileRowsPerProc
  let diagProc := ptst.findIdx (fun s => decide (col < s))
  let ptstShift := 0 :: ptst.dropLast
  (mergeListSorted qDictCol).foldl
    (gqdsStep qTileColumns ptstShift diagProc col (lookupRec qDictCol))
    (fun _ => Option.none)

lemma foldl_gmdUpdate_not_mem (f : ℕ → Mat) (dst : ℕ) (s : List ℕ) (d : GMD)
    (i : ℕ) (hi : i ∉ s) :
    (s.foldl (fun d' j => gmdUpdate d' (j, dst) (f j)) d) (i, dst) = d (i, dst) := by
  induction s generalizing d with
  | nil => rfl
  | cons a t ih =>
    have hia : i ≠ a := fun h => hi (h ▸ List.mem_cons_self a t)
    simp only [List.foldl_cons]
    rw [ih _ (fun h => hi (List.mem_cons_of_mem a h))]
    simp [gmdUpdate, hia]

lemma foldl_gmdUpdate_mem (f : ℕ → Mat) (dst : ℕ) (s : List ℕ) (hnd : s.Nodup)
    (d : GMD) (i : ℕ) (hi : i ∈ s) :
    (s.foldl (fun d' j => gmdUpdate d' (j, dst) (f j)) d) (i, dst)
      = Option.some (f i) := by
  induction s generalizing d with
  | nil => cases hi
  | cons a t ih =>
    simp only [List.foldl_cons]
    rcases List.mem_cons.mp hi with rfl | hmem
    · have hnotin : i ∉ t := (List.nodup_cons.mp hnd).1
      rw [foldl_gmdUpdate_not_mem f dst t _ i hnotin]
      simp [gmdUpdate]
    · exact ih (List.nodup_cons.mp hnd).2 _ hmem

/-- C6 (amended): `__global_q_dict_set` processes the column's Partial
Factor Records in ascending string order of their keys (the sorted
`merge_list` is a sorted permutation of the record keys), and each of the
four sub-blocks of a record updates the dictionary by its *source
tile-column*, read from the pre-record snapshot: if no entry of the source
column is populated, the sub-block is inserted at its target coordinate
`(src, dst)`; otherwise, for every populated entry `(i, src)` of the source
column, the product `hold[(i, src)] @ block` is written at `(i, dst)` —
overwriting whatever was stored there, rather than composing with the
entry at the target coordinate. -/
theorem C6_global_merge_replay (qDictCol : List (List Char × QRec))
    (qtc : ℕ) (hold : GMD) (src dst : ℕ) (blk : Mat) (d : GMD) :
    (List.Sorted (fun a b => a ≤ b) (mergeListSorted qDictCol)
      ∧ (mergeListSorted qDictCol).Perm (qDictCol.map Prod.fst))
    ∧ ((∀ i, i < qtc → (hold (i, src)).isSome = false) →
        blockStep qtc hold src dst blk d = gmdUpdate d (src, dst) blk)
    ∧ (∀ i, i < qtc → ∀ m, hold (i, src) = Option.some m →
        (blockStep qtc hold src dst blk d) (i, dst)
          = Option.some (Mat.mul m blk)) := by
  refine ⟨⟨List.sorted_insertionSort _ _, List.perm_insertionSort _ _⟩,
    fun hempty => ?_, fun i hi m hm => ?_⟩
  · unfold blockStep
    rw [if_pos]
    rw [List.filter_eq_nil_iff]
    intro a ha
    rw [List.mem_range] at ha
    simp [hempty a ha]
  · unfold blockStep
    have hiS : i ∈ (List.range qtc).filter (fun j => (hold (j, src)).isSome) := by
      rw [List.mem_filter, List.mem_range]
      exact ⟨hi, by simp [hm]⟩
    rw [if_neg (by
      intro h
      rw [h] at hiS
      cases hiS)]
    rw [foldl_gmdUpdate_mem (fun j => Mat.mul ((hold (j, src)).getD zeroMat) blk) dst _
      ((List.nodup_range qtc).filter _) d i hiS]
    rw [hm]
    rfl

/-- Witness for C6 (amended): a snapshot with a single populated entry
`(0, 0)` holding a 1-by-1 matrix `[[2]]`; the (K)-style sub-block update
with source column 0 and target column 2 writes the product at `(0, 2)`. -/
theorem C6_global_merge_replay_witness :
    (blockStep 3 (gmdUpdate (fun _ => Option.none) (0, 0) (Mat.mk 1 1 (fun _ _ => 2)))
        0 2 (Mat.mk 1 1 (fun _ _ => 3)) (fun _ => Option.none)) (0, 2)
      = Option.some (Mat.mul (Mat.mk 1 1 (fun _ _ => 2)) (Mat.mk 1 1 (fun _ _ => 3))) := by
  have h := C6_global_merge_replay []
    3 (gmdUpdate (fun _ => Option.none) (0, 0) (Mat.mk 1 1 (fun _ _ => 2)))
    0 2 (Mat.mk 1 1 (fun _ _ => 3)) (fun _ => Option.none)
  exact h.2.2 0 (by decide) (Mat.mk 1 1 (fun _ _ => 2)) rfl

def c6Lpq1 : Mat :=
  Mat.mk 2 2 (fun i j =>
    if i = 0 then (if j = 0 then 2 else 5) else (if j = 0 then 7 else 11))

def c6Lpq2 : Mat :=
  Mat.mk 2 2 (fun i j =>
    if i = 0 then (if j = 0 then 13 else 3) else (if j = 0 then 17 else 19))

/-- The records of a reachable three-rank scenario (ranks `[0, 1, 2]`, one
tile row each, column 0): the merge `(0, 1)` at loop 0 and the merge
`(0, 2)` at loop 1, exactly the schedule `rCalcSchedule [0, 1, 2]`
produces, with 1-by-1 tiles so each factor is 2-by-2 with
`base_size = (1, 1)`. -/
def c6Records : List (List Char × QRec) :=
  [(['0', 'p', '0', '0', 'p', '1', '1', 'e'], QRec.mk c6Lpq1 (1, 1)),
   (['1', 'p', '0', '0', 'p', '1', '2', 'e'], QRec.mk c6Lpq2 (1, 1))]

/-- Counterexample for C6 as stated: in the three-rank scenario the target
coordinate `(0, 2)` of the second record's top-right sub-block is *not*
populated after the first record is processed, yet processing the second
record does not insert the sub-block there: the code checks whether the
*source column* 0 has any populated entry (it does) and therefore writes
`hold[(0, 0)] @ top_right = [[6]]` at `(0, 2)` instead of the sub-block
`[[3]]` itself. -/
theorem C6_counterexample :
    ((globalQDictSet [(['0', 'p', '0', '0', 'p', '1', '1', 'e'], QRec.mk c6Lpq1 (1, 1))]
        0 [1, 1, 1] 3) (0, 2)).isSome = false
    ∧ ((globalQDictSet c6Records 0 [1, 1, 1] 3) (0, 2)).map (fun m => m.ent 0 0)
        = Option.some 6
    ∧ (Mat.slice c6Lpq2 0 1 1 2).ent 0 0 = 3
    ∧ (globalQDictSet c6Records 0 [1, 1, 1] 3) (0, 2)
        ≠ Option.some (Mat.slice c6Lpq2 0 1 1 2) := by
  refine ⟨by decide, by decide, by decide, fun h => ?_⟩
  have h6 : ((globalQDictSet c6Records 0 [1, 1, 1] 3) (0, 2)).map (fun m => m.ent 0 0)
      = Option.some 6 := by decide
  rw [h] at h6
  exact absurd h6 (by decide)

end HeatQR
